import Mathlib

/-!
# Homogeneous 2D points: `cvx_gl::homg_point_2d`

A shallow embedding of `slam_system/rf_map/cvx_gl/gl_homg_point_2d.h`.

The header stores three coordinates `x, y, w` and offers the ideal-point test
as a method; the free functions (difference, sum with a vector, `collinear`,
`centre`, ...) are kept in the trailing block of the header, as templates over
the coordinate type `T`.
The embedding keeps the coordinate type as a parameter `T`.  Every operation
is translated expression by expression, and the theorems are stated over an
arbitrary linearly ordered field, i.e. the coordinates are taken in exact
arithmetic (rounding, overflow, infinities and NaN of `double` are outside the
model); the integral instantiation of the n-ary `centre` is taken over `ℤ` with
truncating division.

The vector type `vgl_vector_2d<T>` and `cross_ratio`, whose code is not part of
the header, are modelled from their description.

Where a property holds in exact arithmetic only, the functions are also
evaluated in the arithmetic of `double` (namespace `binary64`), and the
property is stated for exact arithmetic next to an input on which rounding or
overflow make the `double` code differ.

An `assert` that fails produces no value: a function guarded by an assertion
returns `Option`, with `none` for the failed assertion.
-/

namespace cvx_gl

/-- A homogeneous 2D point: the three stored coordinates `x_`, `y_`, `w_`. -/
structure homg_point_2d (T : Type) where
  x : T
  y : T
  w : T
deriving DecidableEq, Repr

/-- Modelled from the spec: the vector type `vgl_vector_2d<T>` is an external
collaborator whose declaration is not part of the header; the spec describes it
as a 2-component vector, built from its two components and read back through
`x()` and `y()`. -/
structure vector_2d (T : Type) where
  x : T
  y : T
deriving DecidableEq, Repr

variable {T : Type}

/-- The method `homg_point_2d::ideal(tol)`:
`fabs(w()) <= tol * fabs(x()) || fabs(w()) <= tol * fabs(y())`.
The default argument of the source is `tol = 0.0`. -/
def homg_point_2d.ideal [LinearOrderedRing T] (p : homg_point_2d T) (tol : T) : Bool :=
  decide (|p.w| ≤ tol * |p.x|) || decide (|p.w| ≤ tol * |p.y|)

/-- The free function `is_ideal(p, tol)`, which forwards to `p.ideal(tol)`. -/
def is_ideal [LinearOrderedRing T] (p : homg_point_2d T) (tol : T) : Bool :=
  p.ideal tol

/-- The free function `operator-(p1, p2)` on two points:
`assert(p1.w() && p2.w())`, then the vector
`(p1.x()/p1.w() - p2.x()/p2.w(), p1.y()/p1.w() - p2.y()/p2.w())`. -/
def operator_minus [Ring T] [Div T] [DecidableEq T]
    (p1 p2 : homg_point_2d T) : Option (vector_2d T) :=
  if p1.w ≠ 0 ∧ p2.w ≠ 0 then
    some ⟨p1.x / p1.w - p2.x / p2.w, p1.y / p1.w - p2.y / p2.w⟩
  else
    none

/-- The free function `operator+(p, v)` on a point and a vector:
`(p.x() + v.x()*p.w(), p.y() + v.y()*p.w(), p.w())`. -/
def operator_plus [Ring T] (p : homg_point_2d T) (v : vector_2d T) : homg_point_2d T :=
  ⟨p.x + v.x * p.w, p.y + v.y * p.w, p.w⟩

/-- The free function `collinear(p1, p2, p3)`: the homogeneous determinant
compared with zero. -/
def collinear [Ring T] [DecidableEq T] (p1 p2 p3 : homg_point_2d T) : Bool :=
  decide ((p1.x * p2.y - p1.y * p2.x) * p3.w
        + (p3.x * p1.y - p3.y * p1.x) * p2.w
        + (p2.x * p3.y - p2.y * p3.x) * p1.w = 0)

/-- The free function `centre(p1, p2)` on two points:
`(p1.x()*p2.w() + p2.x()*p1.w(), p1.y()*p2.w() + p2.y()*p1.w(), p1.w()*p2.w()*2)`. -/
def centre [Ring T] (p1 p2 : homg_point_2d T) : homg_point_2d T :=
  ⟨p1.x * p2.w + p2.x * p1.w, p1.y * p2.w + p2.y * p1.w, p1.w * p2.w * 2⟩

/-- Modelled from the spec: the product `f * v` of a scalar and a vector of the
external collaborator `vgl_vector_2d<T>`, whose declaration is not part of the
header; the spec describes it as the componentwise scaling of the vector. -/
def vector_2d.scale [Mul T] (f : T) (v : vector_2d T) : vector_2d T :=
  ⟨f * v.x, f * v.y⟩

/-- Modelled from the spec: the dot product of two vectors of the external
collaborator `vgl_vector_2d<T>`, used by the quotient of two vectors. -/
def dot_product [Add T] [Mul T] (u v : vector_2d T) : T :=
  u.x * v.x + u.y * v.y

/-- Modelled from the spec: the quotient `u / v` of two vectors of the external
collaborator `vgl_vector_2d<T>`, the scalar `dot(u,v) / dot(v,v)`, which is the
`k` with `u = k·v` when `u` is parallel to `v`. -/
def vector_2d.quotient [Add T] [Mul T] [Div T] (u v : vector_2d T) : T :=
  dot_product u v / dot_product v v

/-- The free function `ratio(p1, p2, p3)`: `(p3-p1)/(p2-p1)`.  Both point
differences carry the assertion of `operator-`. -/
def ratio [Ring T] [Div T] [DecidableEq T] (p1 p2 p3 : homg_point_2d T) : Option T :=
  match operator_minus p3 p1, operator_minus p2 p1 with
  | some u, some v => some (vector_2d.quotient u v)
  | _, _ => none

/-- The free function `midpoint(p1, p2, f)`: `p1 + f*(p2-p1)`.  The point
difference carries the assertion of `operator-`.  The default argument of the
source is `f = 0.5`. -/
def midpoint [Ring T] [Div T] [DecidableEq T] (p1 p2 : homg_point_2d T) (f : T) :
    Option (homg_point_2d T) :=
  match operator_minus p2 p1 with
  | some d => some (operator_plus p1 (vector_2d.scale f d))
  | none => none

/-- The free function `centre(v)` on a vector of points: `n = v.size()`,
`assert(n>0)`, then the loop `x += v[i].x()/v[i].w(), y += v[i].y()/v[i].w()`
from `x = 0, y = 0`, and the result `(x, y, (T)n)`.  The size is taken to fit
the `int` that holds it. -/
def centre_vector [Ring T] [Div T] (v : List (homg_point_2d T)) : Option (homg_point_2d T) :=
  let n := v.length
  if 0 < n then
    let xy := v.foldl (fun (acc : T × T) p => (acc.1 + p.x / p.w, acc.2 + p.y / p.w)) (0, 0)
    some ⟨xy.1, xy.2, (n : T)⟩
  else
    none

/-- Modelled from the spec: `cross_ratio(p1, p2, p3, p4)` is only declared in
the header, its body is elsewhere; the spec and the header comment give it as
`((p1−p3)/(p1−p4)) / ((p2−p3)/(p2−p4))`, built from the point differences
(which need finite points) and the quotient of two vectors. -/
def cross_ratio [Ring T] [Div T] [DecidableEq T] (p1 p2 p3 p4 : homg_point_2d T) :
    Option T :=
  match operator_minus p1 p3, operator_minus p1 p4,
      operator_minus p2 p3, operator_minus p2 p4 with
  | some a, some b, some c, some d =>
      some (vector_2d.quotient a b / vector_2d.quotient c d)
  | _, _, _, _ => none

/-- The truncating division of the integral coordinate type `int`. -/
def int_div : Div ℤ := ⟨Int.tdiv⟩

/-! ## The coordinate type `double`

The class of the header stores `double` coordinates.  The definitions below
give the arithmetic of that type (IEEE 754 binary64, round to nearest with ties
to even, gradual underflow, overflow to infinity, NaN) and the functions of the
header evaluated in it, in the namespace `binary64`.  They serve to evaluate
the code on concrete inputs where rounding or overflow decides the result. -/

/-- The integer nearest to `n/d` (for `d > 0`), a tie going to the even
integer: the rounding rule of IEEE 754 round-to-nearest. -/
def round_half_even (n : ℤ) (d : ℕ) : ℤ :=
  let q := n / (d : ℤ)
  let r := n % (d : ℤ)
  if 2 * r < d then q
  else if (d : ℤ) < 2 * r then q + 1
  else if q % 2 = 0 then q else q + 1

/-- The number of halvings that bring `n` below `2`, i.e. `⌊log₂ n⌋` for
`n > 0`; the first argument bounds the number of steps. -/
def log2_fuel : ℕ → ℕ → ℕ
  | 0, _ => 0
  | fuel + 1, n => if n < 2 then 0 else 1 + log2_fuel fuel (n / 2)

/-- The integer `⌊log₂ (n/d)⌋` for `n, d > 0`. -/
def floor_log2 (n d : ℕ) : ℤ :=
  let e0 : ℤ := (log2_fuel n n : ℤ) - (log2_fuel d d : ℤ)
  if 0 ≤ e0 then (if d * 2 ^ e0.toNat ≤ n then e0 else e0 - 1)
  else (if d ≤ n * 2 ^ (-e0).toNat then e0 else e0 - 1)

/-- The rational `2 ^ e` for an integer exponent `e`. -/
def pow2 (e : ℤ) : ℚ :=
  if 0 ≤ e then mkRat (2 ^ e.toNat : ℕ) 1 else mkRat 1 (2 ^ (-e).toNat)

/-- Rounding of a rational to the binary64 grid, to nearest with ties to even:
53 significant bits at the exponent `⌊log₂ |q|⌋`, the exponent being held at
`-1022` below the normal range (subnormal numbers, spacing `2 ^ -1074`).
The range is not bounded above here; `double.nearest` handles overflow. -/
def round_to_grid (q : ℚ) : ℚ :=
  if q.num = 0 then 0 else
  let e := max (floor_log2 q.num.natAbs q.den) (-1022)
  let s := q * pow2 (52 - e)
  mkRat (round_half_even s.num s.den) 1 * pow2 (e - 52)

/-- A value of the C++ type `double` (IEEE 754 binary64): a finite number,
plus or minus infinity, or NaN.  The two zeros are not told apart. -/
inductive double where
  | finite (q : ℚ)
  | infinite (negative : Bool)
  | nan
deriving DecidableEq, Repr

namespace double

/-- The `double` that a real result `q` is rounded to: the nearest value of the
binary64 grid, or an infinity when that value is `2 ^ 1024` or beyond. -/
def nearest (q : ℚ) : double :=
  let r := round_to_grid q
  if pow2 1024 ≤ |r| then infinite (decide (q < 0)) else finite r

/-- Unary minus. -/
def neg : double → double
  | finite a => finite (-a)
  | infinite n => infinite (!n)
  | nan => nan

/-- The sum of two doubles. -/
def add : double → double → double
  | finite a, finite b => nearest (a + b)
  | finite _, infinite n => infinite n
  | infinite n, finite _ => infinite n
  | infinite n, infinite m => if n = m then infinite n else nan
  | _, _ => nan

/-- The difference of two doubles. -/
def sub (a b : double) : double :=
  add a (neg b)

/-- The product of two doubles. -/
def mul : double → double → double
  | finite a, finite b => nearest (a * b)
  | finite a, infinite n => if a = 0 then nan else infinite (xor (decide (a < 0)) n)
  | infinite n, finite b => if b = 0 then nan else infinite (xor n (decide (b < 0)))
  | infinite n, infinite m => infinite (xor n m)
  | _, _ => nan

/-- The quotient of two doubles; a zero divisor counts as `+0`. -/
def div : double → double → double
  | finite a, finite b =>
      if b = 0 then (if a = 0 then nan else infinite (decide (a < 0))) else nearest (a / b)
  | finite _, infinite _ => finite 0
  | infinite n, finite b => infinite (xor n (decide (b < 0)))
  | _, _ => nan

/-- The function `std::fabs`. -/
def fabs : double → double
  | finite a => finite |a|
  | infinite _ => infinite false
  | nan => nan

/-- The comparison `a <= b`, false when an operand is NaN. -/
def le : double → double → Bool
  | finite a, finite b => decide (a ≤ b)
  | finite _, infinite n => !n
  | infinite n, finite _ => n
  | infinite n, infinite m => n || !m
  | _, _ => false

/-- The comparison `a == 0`. -/
def is_zero : double → Bool
  | finite a => decide (a = 0)
  | _ => false

/-- The conversion of a `double` to `bool`: true unless the value is zero. -/
def to_bool (a : double) : Bool :=
  !(is_zero a)

/-- The test `std::isfinite`: neither an infinity nor NaN. -/
def is_finite : double → Bool
  | finite _ => true
  | _ => false

instance instNeg : Neg double := ⟨neg⟩
instance instAdd : Add double := ⟨add⟩
instance instSub : Sub double := ⟨sub⟩
instance instMul : Mul double := ⟨mul⟩
instance instDiv : Div double := ⟨div⟩

end double

namespace binary64

/-- The method `homg_point_2d::ideal(tol)` in `double`. -/
def ideal (p : homg_point_2d double) (tol : double) : Bool :=
  double.le (double.fabs p.w) (tol * double.fabs p.x) ||
  double.le (double.fabs p.w) (tol * double.fabs p.y)

/-- The function `operator-(p1, p2)` on two points, at `T = double`. -/
def operator_minus (p1 p2 : homg_point_2d double) : Option (vector_2d double) :=
  if (double.to_bool p1.w && double.to_bool p2.w) = true then
    some ⟨p1.x / p1.w - p2.x / p2.w, p1.y / p1.w - p2.y / p2.w⟩
  else
    none

/-- The function `operator+(p, v)`, at `T = double`. -/
def operator_plus (p : homg_point_2d double) (v : vector_2d double) : homg_point_2d double :=
  ⟨p.x + v.x * p.w, p.y + v.y * p.w, p.w⟩

/-- The function `collinear(p1, p2, p3)`, at `T = double`. -/
def collinear (p1 p2 p3 : homg_point_2d double) : Bool :=
  double.is_zero ((p1.x * p2.y - p1.y * p2.x) * p3.w
        + (p3.x * p1.y - p3.y * p1.x) * p2.w
        + (p2.x * p3.y - p2.y * p3.x) * p1.w)

/-- The function `centre(p1, p2)`, at `T = double`. -/
def centre (p1 p2 : homg_point_2d double) : homg_point_2d double :=
  ⟨p1.x * p2.w + p2.x * p1.w, p1.y * p2.w + p2.y * p1.w, p1.w * p2.w * double.finite 2⟩

/-- The function `ratio(p1, p2, p3)`, at `T = double`. -/
def ratio (p1 p2 p3 : homg_point_2d double) : Option double :=
  match operator_minus p3 p1, operator_minus p2 p1 with
  | some u, some v => some (vector_2d.quotient u v)
  | _, _ => none

/-- The function `midpoint(p1, p2, f)`, at `T = double`. -/
def midpoint (p1 p2 : homg_point_2d double) (f : double) : Option (homg_point_2d double) :=
  match operator_minus p2 p1 with
  | some d => some (operator_plus p1 (vector_2d.scale f d))
  | none => none

end binary64

/-! ## Auxiliary facts -/

section aux

theorem ideal_eq_true_iff [LinearOrderedRing T] (p : homg_point_2d T) (tol : T) :
    p.ideal tol = true ↔ (|p.w| ≤ tol * |p.x| ∨ |p.w| ≤ tol * |p.y|) := by
  simp [homg_point_2d.ideal]

theorem abs_scale_le_iff [LinearOrderedCommRing T] {k : T} (hk : k ≠ 0) (tol a b : T) :
    |k * a| ≤ tol * |k * b| ↔ |a| ≤ tol * |b| := by
  have hpos : 0 < |k| := abs_pos.mpr hk
  rw [abs_mul, abs_mul, mul_left_comm]
  exact mul_le_mul_left hpos

theorem operator_minus_of_finite [Field T] [DecidableEq T] (p1 p2 : homg_point_2d T)
    (h1 : p1.w ≠ 0) (h2 : p2.w ≠ 0) :
    operator_minus p1 p2
      = some (vector_2d.mk (p1.x / p1.w - p2.x / p2.w) (p1.y / p1.w - p2.y / p2.w)) := by
  unfold operator_minus
  rw [if_pos ⟨h1, h2⟩]

end aux

/-! ## Facts on the arithmetic of `double` -/

section double_facts

theorem pow2_eq (e : ℤ) : pow2 e = (2 : ℚ) ^ e := by
  unfold pow2
  split_ifs with h
  · obtain ⟨k, rfl⟩ := Int.eq_ofNat_of_zero_le h
    simp [Rat.mkRat_eq_div]
  · push_neg at h
    obtain ⟨k, hk⟩ := Int.eq_ofNat_of_zero_le (by omega : 0 ≤ -e)
    have he : e = -(k : ℤ) := by omega
    subst he
    simp [Rat.mkRat_eq_div]

theorem round_half_even_int (k : ℤ) : round_half_even k 1 = k := by
  simp [round_half_even]

theorem round_half_even_neg (n : ℤ) (d : ℕ) (hd : 0 < d) :
    round_half_even (-n) d = -round_half_even n d := by
  have hd' : (0 : ℤ) < d := by exact_mod_cast hd
  have h1 := Int.emod_add_ediv n d
  have h2 := Int.emod_nonneg n hd'.ne'
  have h3 := Int.emod_lt_of_pos n hd'
  have key : (n % d = 0 ∧ -n / (d : ℤ) = -(n / d) ∧ -n % (d : ℤ) = 0) ∨
      (0 < n % d ∧ -n / (d : ℤ) = -(n / d) - 1 ∧ -n % (d : ℤ) = d - n % d) := by
    rcases eq_or_lt_of_le h2 with h0 | h0
    · left
      refine ⟨h0.symm, ?_⟩
      rw [Int.ediv_emod_unique hd']
      refine ⟨?_, le_refl _, hd'⟩
      rw [← h0] at h1
      linarith
    · right
      refine ⟨h0, ?_⟩
      rw [Int.ediv_emod_unique hd']
      refine ⟨?_, by omega, by omega⟩
      linarith
  unfold round_half_even
  simp only
  rcases key with ⟨k0, kq, kr⟩ | ⟨k0, kq, kr⟩
  · rw [kq, kr, k0]
    simp [hd']
  · rw [kq, kr]
    generalize n / (d : ℤ) = q at *
    generalize n % (d : ℤ) = r at *
    split_ifs <;> omega

theorem round_half_even_le (n : ℤ) (d : ℕ) (hd : 0 < d) (U : ℤ) (h : n ≤ U * d) :
    round_half_even n d ≤ U := by
  have hd' : (0 : ℤ) < d := by exact_mod_cast hd
  have h1 := Int.emod_add_ediv n d
  have h2 := Int.emod_nonneg n hd'.ne'
  have h3 := Int.emod_lt_of_pos n hd'
  have hq : n / (d : ℤ) ≤ U := by
    by_contra hc
    push_neg at hc
    have : (d : ℤ) * (U + 1) ≤ d * (n / d) := mul_le_mul_of_nonneg_left (by omega) hd'.le
    nlinarith
  unfold round_half_even
  simp only
  rcases eq_or_lt_of_le hq with hq' | hq'
  · have hr : n % (d : ℤ) = 0 := by
      rw [hq'] at h1
      nlinarith
    rw [hr]
    simp [hd', hq]
  · split_ifs <;> omega

theorem le_round_half_even (n : ℤ) (d : ℕ) (hd : 0 < d) (L : ℤ) (h : L * d ≤ n) :
    L ≤ round_half_even n d := by
  have hd' : (0 : ℤ) < d := by exact_mod_cast hd
  have h1 := Int.emod_add_ediv n d
  have h2 := Int.emod_nonneg n hd'.ne'
  have h3 := Int.emod_lt_of_pos n hd'
  have hq : L ≤ n / (d : ℤ) := by
    by_contra hc
    push_neg at hc
    have : (d : ℤ) * (n / d + 1) ≤ d * L := mul_le_mul_of_nonneg_left (by omega) hd'.le
    nlinarith
  unfold round_half_even
  simp only
  split_ifs <;> omega

theorem log2_fuel_spec (fuel n : ℕ) (hn : 0 < n) (hf : n ≤ fuel) :
    2 ^ log2_fuel fuel n ≤ n ∧ n < 2 ^ (log2_fuel fuel n + 1) := by
  induction fuel generalizing n with
  | zero => omega
  | succ fuel ih =>
    unfold log2_fuel
    split_ifs with h2
    · constructor
      · simpa using hn
      · simpa using h2
    · push_neg at h2
      have hhalf : 0 < n / 2 := Nat.div_pos h2 (by norm_num)
      have hle : n / 2 ≤ fuel := by omega
      obtain ⟨l, u⟩ := ih (n / 2) hhalf hle
      have hmul : 2 * (n / 2) ≤ n := Nat.mul_div_le n 2
      have hlt : n < 2 * (n / 2 + 1) := by omega
      constructor
      · calc 2 ^ (1 + log2_fuel fuel (n / 2)) = 2 * 2 ^ log2_fuel fuel (n / 2) := by
              rw [pow_add, pow_one]
          _ ≤ 2 * (n / 2) := Nat.mul_le_mul_left 2 l
          _ ≤ n := hmul
      · calc n < 2 * (n / 2 + 1) := hlt
          _ ≤ 2 * 2 ^ (log2_fuel fuel (n / 2) + 1) := Nat.mul_le_mul_left 2 u
          _ = 2 ^ (1 + log2_fuel fuel (n / 2) + 1) := by
              rw [← pow_succ']
              congr 1
              omega

theorem floor_log2_spec (n d : ℕ) (hn : 0 < n) (hd : 0 < d) :
    (2 : ℚ) ^ floor_log2 n d ≤ (n : ℚ) / d ∧ (n : ℚ) / d < 2 ^ (floor_log2 n d + 1) := by
  obtain ⟨na, nb⟩ := log2_fuel_spec n n hn le_rfl
  obtain ⟨da, db⟩ := log2_fuel_spec d d hd le_rfl
  have hdq : (0 : ℚ) < d := by exact_mod_cast hd
  have hnq : (0 : ℚ) < n := by exact_mod_cast hn
  have two_pos : ∀ z : ℤ, (0 : ℚ) < 2 ^ z := fun z => zpow_pos (by norm_num) z
  have na' : (2 : ℚ) ^ (log2_fuel n n : ℤ) ≤ n := by
    rw [zpow_natCast]; exact_mod_cast na
  have nb' : (n : ℚ) < 2 ^ ((log2_fuel n n : ℤ) + 1) := by
    have : ((log2_fuel n n : ℤ) + 1) = ((log2_fuel n n + 1 : ℕ) : ℤ) := by push_cast; ring
    rw [this, zpow_natCast]; exact_mod_cast nb
  have da' : (2 : ℚ) ^ (log2_fuel d d : ℤ) ≤ d := by
    rw [zpow_natCast]; exact_mod_cast da
  have db' : (d : ℚ) < 2 ^ ((log2_fuel d d : ℤ) + 1) := by
    have : ((log2_fuel d d : ℤ) + 1) = ((log2_fuel d d + 1 : ℕ) : ℤ) := by push_cast; ring
    rw [this, zpow_natCast]; exact_mod_cast db
  -- generic bounds
  have lower : (2 : ℚ) ^ ((log2_fuel n n : ℤ) - (log2_fuel d d : ℤ) - 1) ≤ (n : ℚ) / d := by
    rw [le_div_iff₀ hdq]
    calc (2 : ℚ) ^ ((log2_fuel n n : ℤ) - (log2_fuel d d : ℤ) - 1) * d
        ≤ 2 ^ ((log2_fuel n n : ℤ) - (log2_fuel d d : ℤ) - 1) * 2 ^ ((log2_fuel d d : ℤ) + 1) :=
          mul_le_mul_of_nonneg_left db'.le (two_pos _).le
      _ = 2 ^ (log2_fuel n n : ℤ) := by
          rw [← zpow_add₀ (by norm_num : (2 : ℚ) ≠ 0)]
          congr 1
          ring
      _ ≤ n := na'
  have upper : (n : ℚ) / d < 2 ^ ((log2_fuel n n : ℤ) - (log2_fuel d d : ℤ) + 1) := by
    rw [div_lt_iff₀ hdq]
    calc (n : ℚ) < 2 ^ ((log2_fuel n n : ℤ) + 1) := nb'
      _ = 2 ^ ((log2_fuel n n : ℤ) - (log2_fuel d d : ℤ) + 1) * 2 ^ (log2_fuel d d : ℤ) := by
          rw [← zpow_add₀ (by norm_num : (2 : ℚ) ≠ 0)]
          congr 1
          ring
      _ ≤ 2 ^ ((log2_fuel n n : ℤ) - (log2_fuel d d : ℤ) + 1) * d :=
          mul_le_mul_of_nonneg_left da' (two_pos _).le
  unfold floor_log2
  simp only
  generalize (log2_fuel n n : ℤ) - (log2_fuel d d : ℤ) = e0 at *
  split_ifs with h0 ht ht
  · -- 0 ≤ e0, d * 2^e0 ≤ n
    refine ⟨?_, upper⟩
    rw [le_div_iff₀ hdq]
    obtain ⟨k, rfl⟩ := Int.eq_ofNat_of_zero_le h0
    rw [zpow_natCast, mul_comm]
    simp only [Int.toNat_ofNat] at ht
    exact_mod_cast ht
  · refine ⟨lower, ?_⟩
    rw [div_lt_iff₀ hdq, sub_add_cancel]
    obtain ⟨k, rfl⟩ := Int.eq_ofNat_of_zero_le h0
    rw [zpow_natCast, mul_comm]
    simp only [Int.toNat_ofNat] at ht
    push_neg at ht
    exact_mod_cast ht
  · refine ⟨?_, upper⟩
    push_neg at h0
    obtain ⟨k, hk⟩ := Int.eq_ofNat_of_zero_le (by omega : 0 ≤ -e0)
    have he : e0 = -(k : ℤ) := by omega
    subst he
    simp only [neg_neg, Int.toNat_ofNat] at ht
    rw [zpow_neg, zpow_natCast, le_div_iff₀ hdq, inv_mul_le_iff₀ (by positivity)]
    rw [mul_comm]
    exact_mod_cast ht
  · refine ⟨lower, ?_⟩
    push_neg at h0
    obtain ⟨k, hk⟩ := Int.eq_ofNat_of_zero_le (by omega : 0 ≤ -e0)
    have he : e0 = -(k : ℤ) := by omega
    subst he
    simp only [neg_neg, Int.toNat_ofNat] at ht
    push_neg at ht
    rw [sub_add_cancel, zpow_neg, zpow_natCast, div_lt_iff₀ hdq, lt_inv_mul_iff₀ (by positivity)]
    rw [mul_comm]
    exact_mod_cast ht

theorem round_to_grid_zero : round_to_grid 0 = 0 := by
  simp [round_to_grid]

theorem round_to_grid_of_ne (x : ℚ) (hx : x ≠ 0) :
    round_to_grid x
      = ((round_half_even
            (x * 2 ^ (52 - max (floor_log2 x.num.natAbs x.den) (-1022))).num
            (x * 2 ^ (52 - max (floor_log2 x.num.natAbs x.den) (-1022))).den : ℤ) : ℚ)
        * 2 ^ (max (floor_log2 x.num.natAbs x.den) (-1022) - 52) := by
  have hnum : x.num ≠ 0 := Rat.num_ne_zero.mpr hx
  unfold round_to_grid
  rw [if_neg hnum]
  simp only [pow2_eq, Rat.mkRat_eq_div, Nat.cast_one, div_one]

theorem round_to_grid_of_int (x : ℚ) (K : ℤ) (hx : x ≠ 0)
    (h : x * 2 ^ (52 - max (floor_log2 x.num.natAbs x.den) (-1022)) = (K : ℚ)) :
    round_to_grid x = x := by
  rw [round_to_grid_of_ne x hx, h]
  simp only [Rat.num_intCast, Rat.den_intCast, round_half_even_int]
  rw [← h, mul_assoc, ← zpow_add₀ (by norm_num : (2 : ℚ) ≠ 0)]
  simp

theorem abs_eq_natAbs_div (x : ℚ) : |x| = (x.num.natAbs : ℚ) / x.den := by
  have hd : (0 : ℚ) < x.den := by exact_mod_cast x.pos
  conv_lhs => rw [← Rat.num_div_den x]
  rw [abs_div, abs_of_pos hd]
  congr 1
  rw [Nat.cast_natAbs, Int.cast_abs]

theorem floor_log2_abs (x : ℚ) (hx : x ≠ 0) :
    (2 : ℚ) ^ floor_log2 x.num.natAbs x.den ≤ |x| ∧
      |x| < 2 ^ (floor_log2 x.num.natAbs x.den + 1) := by
  have hnum : x.num ≠ 0 := Rat.num_ne_zero.mpr hx
  have h := floor_log2_spec x.num.natAbs x.den (Int.natAbs_pos.mpr hnum) x.pos
  rw [abs_eq_natAbs_div]
  exact h

theorem round_to_grid_neg (x : ℚ) : round_to_grid (-x) = -round_to_grid x := by
  by_cases hx : x = 0
  · subst hx
    simp [round_to_grid_zero]
  · have hnx : -x ≠ 0 := neg_ne_zero.mpr hx
    rw [round_to_grid_of_ne x hx, round_to_grid_of_ne (-x) hnx]
    simp only [Rat.num_neg_eq_neg_num, Rat.den_neg_eq_den, Int.natAbs_neg, neg_mul]
    rw [round_half_even_neg _ _ (Rat.pos _)]
    push_cast
    ring

theorem round_to_grid_idem (x : ℚ) : round_to_grid (round_to_grid x) = round_to_grid x := by
  by_cases hx : x = 0
  · subst hx
    simp [round_to_grid_zero]
  have two_ne : (2 : ℚ) ≠ 0 := by norm_num
  have two_pos : ∀ z : ℤ, (0 : ℚ) < 2 ^ z := fun z => zpow_pos (by norm_num) z
  obtain ⟨xl, xu⟩ := floor_log2_abs x hx
  rw [round_to_grid_of_ne x hx]
  generalize he : max (floor_log2 x.num.natAbs x.den) (-1022) = e at *
  have he1 : floor_log2 x.num.natAbs x.den ≤ e := by rw [← he]; exact le_max_left _ _
  have he2 : -1022 ≤ e := by rw [← he]; exact le_max_right _ _
  -- the scaled value lies strictly between -2^53 and 2^53
  have hs : |x * 2 ^ (52 - e)| < 2 ^ (53 : ℤ) := by
    rw [abs_mul, abs_of_pos (two_pos _)]
    calc |x| * 2 ^ (52 - e) < 2 ^ (floor_log2 x.num.natAbs x.den + 1) * 2 ^ (52 - e) :=
          mul_lt_mul_of_pos_right xu (two_pos _)
      _ ≤ 2 ^ (e + 1) * 2 ^ (52 - e) := by
          apply mul_le_mul_of_nonneg_right _ (two_pos _).le
          exact zpow_le_zpow_right₀ (by norm_num) (by omega)
      _ = 2 ^ (53 : ℤ) := by
          rw [← zpow_add₀ two_ne]
          congr 1
          ring
  generalize hsdef : x * 2 ^ (52 - e) = s at *
  have hsden : (0 : ℚ) < s.den := by exact_mod_cast s.pos
  have hsq : s = (s.num : ℚ) / s.den := (Rat.num_div_den s).symm
  have hpow : ((2 : ℚ) ^ (53 : ℤ)) = ((2 ^ 53 : ℤ) : ℚ) := by norm_num
  have hm_le : round_half_even s.num s.den ≤ 2 ^ 53 := by
    apply round_half_even_le _ _ s.pos
    have h1 : s ≤ 2 ^ (53 : ℤ) := (le_abs_self s).trans hs.le
    rw [hsq, div_le_iff₀ hsden, hpow] at h1
    exact_mod_cast h1
  have hm_ge : -(2 ^ 53) ≤ round_half_even s.num s.den := by
    apply le_round_half_even _ _ s.pos
    have h1 : -(2 ^ (53 : ℤ)) ≤ s := by
      have := neg_abs_le s
      linarith
    rw [hsq, le_div_iff₀ hsden, hpow] at h1
    exact_mod_cast h1
  generalize round_half_even s.num s.den = m at *
  by_cases hm : m = 0
  · subst hm
    simp [round_to_grid_zero]
  have hmq : (m : ℚ) ≠ 0 := by exact_mod_cast hm
  have hr : (m : ℚ) * 2 ^ (e - 52) ≠ 0 := mul_ne_zero hmq (two_pos _).ne'
  obtain ⟨rl, ru⟩ := floor_log2_abs _ hr
  generalize hf : floor_log2 ((m : ℚ) * 2 ^ (e - 52)).num.natAbs ((m : ℚ) * 2 ^ (e - 52)).den
    = f at *
  have habs : |(m : ℚ) * 2 ^ (e - 52)| = |(m : ℚ)| * 2 ^ (e - 52) := by
    rw [abs_mul, abs_of_pos (two_pos _)]
  have hmabs : |(m : ℚ)| ≤ 2 ^ (53 : ℤ) := by
    rw [abs_le, hpow]
    constructor
    · exact_mod_cast hm_ge
    · exact_mod_cast hm_le
  -- the exponent of the rounded value is at most e + 1
  have hf_le : f ≤ e + 1 := by
    have h1 : (2 : ℚ) ^ f ≤ 2 ^ (e + 1) := by
      calc (2 : ℚ) ^ f ≤ |(m : ℚ)| * 2 ^ (e - 52) := by rw [← habs]; exact rl
        _ ≤ 2 ^ (53 : ℤ) * 2 ^ (e - 52) := mul_le_mul_of_nonneg_right hmabs (two_pos _).le
        _ = 2 ^ (e + 1) := by
            rw [← zpow_add₀ two_ne]
            congr 1
            ring
    exact (zpow_le_zpow_iff_right₀ (by norm_num : (1 : ℚ) < 2)).mp h1
  by_cases hcase : max f (-1022) ≤ e
  · -- the scaled rounded value is the integer m * 2 ^ (e - max f (-1022))
    obtain ⟨k, hk⟩ := Int.eq_ofNat_of_zero_le (by omega : 0 ≤ e - max f (-1022))
    apply round_to_grid_of_int _ (m * 2 ^ k) hr
    rw [hf, mul_assoc, ← zpow_add₀ two_ne]
    have : e - 52 + (52 - max f (-1022)) = (k : ℤ) := by omega
    rw [this, zpow_natCast]
    push_cast
    ring
  · -- the exponent is e + 1 and |m| = 2 ^ 53
    push_neg at hcase
    have hfe : f = e + 1 := by
      rcases le_total f (-1022) with h | h
      · rw [max_eq_right h] at hcase
        omega
      · rw [max_eq_left h] at hcase
        omega
    have hmax : max f (-1022) = e + 1 := by
      rw [hfe]
      exact max_eq_left (by omega)
    have hm53 : (2 : ℚ) ^ (53 : ℤ) ≤ |(m : ℚ)| := by
      have h1 : (2 : ℚ) ^ (e + 1) ≤ |(m : ℚ)| * 2 ^ (e - 52) := by
        rw [← habs, ← hfe]; exact rl
      have h2 : (2 : ℚ) ^ (e + 1) = 2 ^ (53 : ℤ) * 2 ^ (e - 52) := by
        rw [← zpow_add₀ two_ne]
        congr 1
        ring
      rw [h2] at h1
      exact le_of_mul_le_mul_right h1 (two_pos _)
    have hmeq : |(m : ℚ)| = 2 ^ (53 : ℤ) := le_antisymm hmabs hm53
    have hmz : m = 2 ^ 53 ∨ m = -(2 ^ 53) := by
      rw [hpow] at hmeq
      have h3 : |m| = 2 ^ 53 := by exact_mod_cast hmeq
      rcases abs_eq (by norm_num : (0 : ℤ) ≤ 2 ^ 53) |>.mp h3 with h | h
      · exact Or.inl h
      · exact Or.inr h
    have hscaled : (m : ℚ) * 2 ^ (e - 52) * 2 ^ (52 - (e + 1)) = ((m / 2 : ℤ) : ℚ) := by
      rw [mul_assoc, ← zpow_add₀ two_ne]
      have : e - 52 + (52 - (e + 1)) = -1 := by ring
      rw [this]
      rcases hmz with h | h <;> subst h <;> norm_num
    apply round_to_grid_of_int _ (m / 2) hr
    rw [hf, hmax]
    exact hscaled

theorem nearest_zero : double.nearest 0 = double.finite 0 := by
  decide!

theorem nearest_neg (q : ℚ) : double.nearest (-q) = double.neg (double.nearest q) := by
  unfold double.nearest
  simp only [round_to_grid_neg, abs_neg]
  split_ifs with h
  · have hq : q ≠ 0 := by
      rintro rfl
      rw [round_to_grid_zero, abs_zero, pow2_eq] at h
      have : (0 : ℚ) < 2 ^ (1024 : ℤ) := zpow_pos (by norm_num) _
      linarith
    simp only [double.neg, double.infinite.injEq]
    rcases lt_or_gt_of_ne hq with hlt | hgt
    · have h1 : ¬ (-q < 0) := by linarith
      simp [hlt, h1]
    · have h1 : ¬ (q < 0) := by linarith
      have h2 : -q < 0 := by linarith
      simp [h1, h2]
  · rfl

theorem nearest_finite_idem (q r : ℚ) (h : double.nearest q = double.finite r) :
    double.nearest r = double.finite r := by
  unfold double.nearest at h
  simp only at h
  split_ifs at h with hov
  have hr : round_to_grid q = r := double.finite.inj h
  unfold double.nearest
  simp only
  rw [← hr, round_to_grid_idem, if_neg hov]

theorem finite_mul_finite (a b : ℚ) :
    double.finite a * double.finite b = double.nearest (a * b) := rfl

theorem finite_add_finite (a b : ℚ) :
    double.finite a + double.finite b = double.nearest (a + b) := rfl

theorem finite_sub_finite (a b : ℚ) :
    double.finite a - double.finite b = double.nearest (a - b) := by
  show double.add (double.finite a) (double.neg (double.finite b)) = _
  simp only [double.neg, double.add, sub_eq_add_neg]

theorem is_finite_iff (a : double) : a.is_finite = true ↔ ∃ r : ℚ, a = double.finite r := by
  cases a <;> simp [double.is_finite]

theorem mul_is_finite (a b : double) (h : (a * b).is_finite = true) :
    a.is_finite = true ∧ b.is_finite = true := by
  change (double.mul a b).is_finite = true at h
  cases a <;> cases b <;> simp [double.mul, double.is_finite] at h ⊢
  all_goals split_ifs at h

theorem sub_is_finite (a b : double) (h : (a - b).is_finite = true) :
    a.is_finite = true ∧ b.is_finite = true := by
  change (double.add a (double.neg b)).is_finite = true at h
  cases a <;> cases b <;> simp [double.add, double.neg, double.is_finite] at h ⊢
  all_goals split_ifs at h

/-- In `double`, `collinear(p, p, q)` is true as soon as the three summands of
the determinant are finite. -/
theorem collinear_self_of_finite (p q : homg_point_2d double)
    (h1 : ((p.x * p.y - p.y * p.x) * q.w).is_finite = true)
    (h2 : ((q.x * p.y - q.y * p.x) * p.w).is_finite = true)
    (h3 : ((p.x * q.y - p.y * q.x) * p.w).is_finite = true) :
    binary64.collinear p p q = true := by
  obtain ⟨px, py, pw⟩ := p
  obtain ⟨qx, qy, qw⟩ := q
  simp only at h1 h2 h3
  obtain ⟨h1a, hqw⟩ := mul_is_finite _ _ h1
  obtain ⟨hxy, -⟩ := sub_is_finite _ _ h1a
  obtain ⟨hpx, hpy⟩ := mul_is_finite _ _ hxy
  obtain ⟨h2a, hpw⟩ := mul_is_finite _ _ h2
  obtain ⟨hu, hv⟩ := sub_is_finite _ _ h2a
  obtain ⟨hqx, -⟩ := mul_is_finite _ _ hu
  obtain ⟨hqy, -⟩ := mul_is_finite _ _ hv
  obtain ⟨a, rfl⟩ := (is_finite_iff _).mp hpx
  obtain ⟨b, rfl⟩ := (is_finite_iff _).mp hpy
  obtain ⟨c, rfl⟩ := (is_finite_iff _).mp hpw
  obtain ⟨d, rfl⟩ := (is_finite_iff _).mp hqx
  obtain ⟨e, rfl⟩ := (is_finite_iff _).mp hqy
  obtain ⟨f, rfl⟩ := (is_finite_iff _).mp hqw
  obtain ⟨x, hx⟩ := (is_finite_iff _).mp hxy
  obtain ⟨u, hu'⟩ := (is_finite_iff _).mp hu
  obtain ⟨v, hv'⟩ := (is_finite_iff _).mp hv
  obtain ⟨g, hg⟩ := (is_finite_iff _).mp h2a
  obtain ⟨t, ht⟩ := (is_finite_iff _).mp h2
  have hx2 : double.finite b * double.finite a = double.finite x := by
    rw [finite_mul_finite, mul_comm, ← finite_mul_finite]; exact hx
  have hu2 : double.finite b * double.finite d = double.finite u := by
    rw [finite_mul_finite, mul_comm, ← finite_mul_finite]; exact hu'
  have hv2 : double.finite a * double.finite e = double.finite v := by
    rw [finite_mul_finite, mul_comm, ← finite_mul_finite]; exact hv'
  -- the first summand is zero
  have s1 : (double.finite a * double.finite b - double.finite b * double.finite a)
      * double.finite f = double.finite 0 := by
    rw [hx, hx2, finite_sub_finite, sub_self, nearest_zero, finite_mul_finite, zero_mul,
      nearest_zero]
  -- the third summand is the opposite of the second
  have hg' : double.nearest (u - v) = double.finite g := by
    rw [← finite_sub_finite, ← hu', ← hv']; exact hg
  have hgneg : double.finite v - double.finite u = double.finite (-g) := by
    rw [finite_sub_finite, ← neg_sub u v, nearest_neg, hg']
    rfl
  have ht' : double.nearest (g * c) = double.finite t := by
    rw [← finite_mul_finite, ← hg]; exact ht
  have s3 : (double.finite a * double.finite e - double.finite b * double.finite d)
      * double.finite c = double.finite (-t) := by
    rw [hv2, hu2, hgneg, finite_mul_finite, neg_mul, nearest_neg, ht']
    rfl
  unfold binary64.collinear
  simp only
  rw [s1, ht, s3, finite_add_finite, zero_add, nearest_finite_idem _ _ ht',
    finite_add_finite, add_neg_cancel, nearest_zero]
  rfl

end double_facts

/-! ## The ideal-point test -/

section ideal

variable [LinearOrderedField T]

/-- C1: for every point `(x, y, w)` and every tolerance `tol`, `ideal(tol)` is
true exactly when `|w| ≤ tol·|x|` or `|w| ≤ tol·|y|`. -/
theorem ideal_iff_or (x y w tol : T) :
    (homg_point_2d.mk x y w).ideal tol = true ↔ (|w| ≤ tol * |x| ∨ |w| ≤ tol * |y|) :=
  ideal_eq_true_iff _ tol

/-- C2: for every point `(x, y, w)` and every tolerance `tol ≥ 0`, `ideal(tol)`
(and so `is_ideal`) is true exactly when `|w| ≤ tol · max(|x|, |y|)`, the check
announced by the header comment. -/
theorem ideal_iff_max (x y w tol : T) (htol : 0 ≤ tol) :
    ((homg_point_2d.mk x y w).ideal tol = true ↔ |w| ≤ tol * max |x| |y|) ∧
    (is_ideal (homg_point_2d.mk x y w) tol = true ↔ |w| ≤ tol * max |x| |y|) := by
  have key : (homg_point_2d.mk x y w).ideal tol = true ↔ |w| ≤ tol * max |x| |y| := by
    rw [ideal_eq_true_iff, mul_max_of_nonneg _ _ htol, le_max_iff]
  exact ⟨key, key⟩

/-- Witness for C2 at the point `(1, 2, 1)` with tolerance `1/2`. -/
theorem ideal_iff_max_witness :
    (0 : ℚ) ≤ 1 / 2 ∧
    (((homg_point_2d.mk (1 : ℚ) 2 1).ideal (1 / 2) = true ↔
        |(1 : ℚ)| ≤ 1 / 2 * max |(1 : ℚ)| |(2 : ℚ)|) ∧
     (is_ideal (homg_point_2d.mk (1 : ℚ) 2 1) (1 / 2) = true ↔
        |(1 : ℚ)| ≤ 1 / 2 * max |(1 : ℚ)| |(2 : ℚ)|)) :=
  ⟨by norm_num, ideal_iff_max 1 2 1 (1 / 2) (by norm_num)⟩

/-- C3: with the default tolerance `0`, `ideal` is true exactly when `w = 0`;
in particular it is false for every point with `w ≠ 0`. -/
theorem ideal_zero_tol (x y w : T) :
    ((homg_point_2d.mk x y w).ideal 0 = true ↔ w = 0) ∧
    (w ≠ 0 → (homg_point_2d.mk x y w).ideal 0 = false) := by
  have key : (homg_point_2d.mk x y w).ideal 0 = true ↔ w = 0 := by
    rw [ideal_eq_true_iff]
    simp
  refine ⟨key, fun hw => ?_⟩
  cases h : (homg_point_2d.mk x y w).ideal 0
  · rfl
  · exact absurd (key.mp h) hw

/-- Witness for C3 at the finite point `(3, 4, 2)`. -/
theorem ideal_zero_tol_witness :
    (2 : ℚ) ≠ 0 ∧ (homg_point_2d.mk (3 : ℚ) 4 2).ideal 0 = false :=
  ⟨by norm_num, (ideal_zero_tol (3 : ℚ) 4 2).2 (by norm_num)⟩

/-- C4: for every point `p` and tolerances `0 ≤ t1 ≤ t2`, if `ideal(t1)` is
true for `p` then `ideal(t2)` is true for `p`. -/
theorem ideal_mono (p : homg_point_2d T) (t1 t2 : T) (_h0 : 0 ≤ t1) (h12 : t1 ≤ t2)
    (h : p.ideal t1 = true) : p.ideal t2 = true := by
  rw [ideal_eq_true_iff] at h ⊢
  rcases h with h | h
  · exact Or.inl (h.trans (mul_le_mul_of_nonneg_right h12 (abs_nonneg _)))
  · exact Or.inr (h.trans (mul_le_mul_of_nonneg_right h12 (abs_nonneg _)))

/-- Witness for C4 at the point `(4, 0, 1)` with tolerances `1/4 ≤ 1`. -/
theorem ideal_mono_witness :
    (homg_point_2d.mk (4 : ℚ) 0 1).ideal (1 / 4) = true ∧
    (homg_point_2d.mk (4 : ℚ) 0 1).ideal 1 = true :=
  have h : (homg_point_2d.mk (4 : ℚ) 0 1).ideal (1 / 4) = true := by
    rw [ideal_eq_true_iff]; norm_num
  ⟨h, ideal_mono (homg_point_2d.mk (4 : ℚ) 0 1) (1 / 4) 1 (by norm_num) (by norm_num) h⟩

/-- C5, as the spec states it, fails on the `double` code: with the tolerance
`1/49` (the nearest `double`), `ideal` is false on the point `(49, 0, 1)` and
true on its multiple by `k = 5`, the point `(245, 0, 5)`, because `tol * 49`
rounds below `1` while `tol * 245` rounds to `5`. -/
theorem ideal_scale_invariant_counterexample :
    double.is_zero (double.finite 5) = false ∧
    (double.finite 5 * double.finite 49 = double.finite 245 ∧
      double.finite 5 * double.finite 0 = double.finite 0 ∧
      double.finite 5 * double.finite 1 = double.finite 5) ∧
    binary64.ideal
        (homg_point_2d.mk (double.finite 49) (double.finite 0) (double.finite 1))
        (double.nearest (1 / 49)) = false ∧
    binary64.ideal
        (homg_point_2d.mk (double.finite 5 * double.finite 49)
          (double.finite 5 * double.finite 0) (double.finite 5 * double.finite 1))
        (double.nearest (1 / 49)) = true ∧
    (double.nearest (1 / 49) * double.finite 49
        = double.finite (9007199254740991 / 9007199254740992) ∧
      double.nearest (1 / 49) * double.finite 245 = double.finite 5) := by
  decide!

/-- C5, amended: with the coordinates taken in exact arithmetic, the
ideal-point test is scale-invariant: for every point `(x, y, w)`, every scalar
`k ≠ 0` and every tolerance `tol`, `ideal(tol)` on `(k·x, k·y, k·w)` returns
the same result as `ideal(tol)` on `(x, y, w)`. -/
theorem ideal_scale_invariant (x y w k tol : T) (hk : k ≠ 0) :
    (homg_point_2d.mk (k * x) (k * y) (k * w)).ideal tol =
      (homg_point_2d.mk x y w).ideal tol := by
  rw [Bool.eq_iff_iff, ideal_eq_true_iff, ideal_eq_true_iff,
    abs_scale_le_iff hk, abs_scale_le_iff hk]

/-- Witness for C5 at the point `(1, 2, 1)` scaled by `-3`, tolerance `1/2`. -/
theorem ideal_scale_invariant_witness :
    (-3 : ℚ) ≠ 0 ∧
    (homg_point_2d.mk ((-3 : ℚ) * 1) (-3 * 2) (-3 * 1)).ideal (1 / 2) =
      (homg_point_2d.mk (1 : ℚ) 2 1).ideal (1 / 2) :=
  ⟨by norm_num, ideal_scale_invariant 1 2 1 (-3) (1 / 2) (by norm_num)⟩

end ideal

/-! ## Point and vector arithmetic -/

section arithmetic

variable [LinearOrderedField T]

/-- C6: for every point `p = (x, y, w)` and every vector `v = (vx, vy)`,
`p + v` is the point `(x + vx·w, y + vy·w, w)`; the weight is unchanged, and
when `p` is ideal (`w = 0`) the result equals `p` in all three coordinates. -/
theorem operator_plus_spec (x y w vx vy : T) :
    operator_plus (homg_point_2d.mk x y w) (vector_2d.mk vx vy)
        = homg_point_2d.mk (x + vx * w) (y + vy * w) w ∧
    (operator_plus (homg_point_2d.mk x y w) (vector_2d.mk vx vy)).w = w ∧
    (w = 0 → operator_plus (homg_point_2d.mk x y w) (vector_2d.mk vx vy)
        = homg_point_2d.mk x y w) := by
  refine ⟨rfl, rfl, fun hw => ?_⟩
  subst hw
  simp [operator_plus]

/-- Witness for C6 at the ideal point `(1, 2, 0)` and the vector `(5, 7)`. -/
theorem operator_plus_spec_witness :
    (0 : ℚ) = 0 ∧
    operator_plus (homg_point_2d.mk (1 : ℚ) 2 0) (vector_2d.mk 5 7)
      = homg_point_2d.mk 1 2 0 :=
  ⟨rfl, (operator_plus_spec (1 : ℚ) 2 0 5 7).2.2 rfl⟩

/-- C7: the point difference `p1 − p2` succeeds exactly when `w1 ≠ 0` and
`w2 ≠ 0` (otherwise the assertion fails and no vector is produced), and when
it succeeds it returns the vector `(x1/w1 − x2/w2, y1/w1 − y2/w2)`. -/
theorem operator_minus_spec (p1 p2 : homg_point_2d T) :
    ((operator_minus p1 p2).isSome = true ↔ (p1.w ≠ 0 ∧ p2.w ≠ 0)) ∧
    (operator_minus p1 p2 = none ↔ (p1.w = 0 ∨ p2.w = 0)) ∧
    (∀ v : vector_2d T, operator_minus p1 p2 = some v ↔
      ((p1.w ≠ 0 ∧ p2.w ≠ 0) ∧
        v = vector_2d.mk (p1.x / p1.w - p2.x / p2.w) (p1.y / p1.w - p2.y / p2.w))) := by
  unfold operator_minus
  by_cases h : p1.w ≠ 0 ∧ p2.w ≠ 0
  · rw [if_pos h]
    refine ⟨by simp [h], ?_, fun v => ?_⟩
    · have h1 := h.1
      have h2 := h.2
      simp [h1, h2]
    · constructor
      · intro hv
        exact ⟨h, (Option.some.inj hv).symm⟩
      · rintro ⟨_, rfl⟩
        rfl
  · rw [if_neg h]
    refine ⟨by simp [h], ?_, fun v => ?_⟩
    · have h' : p1.w = 0 ∨ p2.w = 0 := by
        by_contra hc
        push_neg at hc
        exact h hc
      simp [h']
    · constructor
      · intro hv
        cases hv
      · rintro ⟨hw, _⟩
        exact absurd hw h

end arithmetic

/-! ## Collinearity -/

section collinearity

variable [LinearOrderedField T]

/-- C8, as the spec states it, fails on the `double` code: for the point
`p = (2^700, 2^700, 1)` and `q = (2^700, -2^700, 1)` the products overflow,
`inf - inf` is NaN, and `collinear(p, p, q)` is false. -/
theorem collinear_self_left_counterexample :
    binary64.collinear
        (homg_point_2d.mk (double.finite (2 ^ 700)) (double.finite (2 ^ 700))
          (double.finite 1))
        (homg_point_2d.mk (double.finite (2 ^ 700)) (double.finite (2 ^ 700))
          (double.finite 1))
        (homg_point_2d.mk (double.finite (2 ^ 700)) (double.finite (-2 ^ 700))
          (double.finite 1)) = false ∧
    (double.nearest (2 ^ 700) = double.finite (2 ^ 700) ∧
      double.finite (2 ^ 700) * double.finite (2 ^ 700) = double.infinite false ∧
      double.infinite false - double.infinite false = double.nan) := by
  decide!

/-- C8, amended: for every two points `p` and `q` (ideal or finite, any
homogeneous scaling), `collinear(p, p, q)` is true when the coordinates are
taken in exact arithmetic, and on the `double` code whenever the three summands
of the determinant are finite (no overflow to an infinity or NaN). -/
theorem collinear_self_left :
    (∀ p q : homg_point_2d T, collinear p p q = true) ∧
    (∀ p q : homg_point_2d double,
      ((p.x * p.y - p.y * p.x) * q.w).is_finite = true →
      ((q.x * p.y - q.y * p.x) * p.w).is_finite = true →
      ((p.x * q.y - p.y * q.x) * p.w).is_finite = true →
      binary64.collinear p p q = true) := by
  refine ⟨fun p q => ?_, fun p q h1 h2 h3 => collinear_self_of_finite p q h1 h2 h3⟩
  simp only [collinear, decide_eq_true_eq]
  ring

/-- Witness for the amended C8 at the `double` points `(0.1, 0.7, 3)` and
`(0.3, -2, 0)`. -/
theorem collinear_self_left_witness :
    binary64.collinear
        (homg_point_2d.mk (double.nearest (1 / 10)) (double.nearest (7 / 10))
          (double.finite 3))
        (homg_point_2d.mk (double.nearest (1 / 10)) (double.nearest (7 / 10))
          (double.finite 3))
        (homg_point_2d.mk (double.nearest (3 / 10)) (double.finite (-2))
          (double.finite 0)) = true :=
  (@collinear_self_left ℚ _).2
    (homg_point_2d.mk (double.nearest (1 / 10)) (double.nearest (7 / 10))
      (double.finite 3))
    (homg_point_2d.mk (double.nearest (3 / 10)) (double.finite (-2))
      (double.finite 0))
    (by decide!) (by decide!) (by decide!)

/-- C9, as the spec states it, fails on the `double` code: the points
`(0, 0, 1)`, `(1/9, 5/9, 1)`, `(1, 5, 1)` (with `1/9`, `5/9` the nearest
doubles) are found collinear, and no longer so once the third point is scaled
by `1/7`. -/
theorem collinear_scale_invariant_counterexample :
    double.is_zero (double.nearest (1 / 7)) = false ∧
    binary64.collinear
        (homg_point_2d.mk (double.finite 0) (double.finite 0) (double.finite 1))
        (homg_point_2d.mk (double.nearest (1 / 9)) (double.nearest (5 / 9))
          (double.finite 1))
        (homg_point_2d.mk (double.finite 1) (double.finite 5) (double.finite 1)) = true ∧
    binary64.collinear
        (homg_point_2d.mk (double.finite 0) (double.finite 0) (double.finite 1))
        (homg_point_2d.mk (double.nearest (1 / 9)) (double.nearest (5 / 9))
          (double.finite 1))
        (homg_point_2d.mk (double.nearest (1 / 7) * double.finite 1)
          (double.nearest (1 / 7) * double.finite 5)
          (double.nearest (1 / 7) * double.finite 1)) = false := by
  decide!

/-- C9, amended: with the coordinates taken in exact arithmetic, `collinear`
is independent of normalization: for all points `p1, p2, p3` and all nonzero
scalars `a, b, c`, `collinear(a·p1, b·p2, c·p3)` returns the same result as
`collinear(p1, p2, p3)`, where `k·p` scales all three coordinates of `p`. -/
theorem collinear_scale_invariant (p1 p2 p3 : homg_point_2d T) (a b c : T)
    (ha : a ≠ 0) (hb : b ≠ 0) (hc : c ≠ 0) :
    collinear (homg_point_2d.mk (a * p1.x) (a * p1.y) (a * p1.w))
              (homg_point_2d.mk (b * p2.x) (b * p2.y) (b * p2.w))
              (homg_point_2d.mk (c * p3.x) (c * p3.y) (c * p3.w))
      = collinear p1 p2 p3 := by
  have habc : a * b * c ≠ 0 := mul_ne_zero (mul_ne_zero ha hb) hc
  have hdet :
      (a * p1.x * (b * p2.y) - a * p1.y * (b * p2.x)) * (c * p3.w)
        + (c * p3.x * (a * p1.y) - c * p3.y * (a * p1.x)) * (b * p2.w)
        + (b * p2.x * (c * p3.y) - b * p2.y * (c * p3.x)) * (a * p1.w)
      = a * b * c *
        ((p1.x * p2.y - p1.y * p2.x) * p3.w
          + (p3.x * p1.y - p3.y * p1.x) * p2.w
          + (p2.x * p3.y - p2.y * p3.x) * p1.w) := by
    ring
  rw [Bool.eq_iff_iff]
  simp only [collinear, decide_eq_true_eq]
  rw [hdet, mul_eq_zero]
  exact ⟨fun h => h.resolve_left habc, fun h => Or.inr h⟩

/-- Witness for C9 at the non-collinear points `(0,0,1)`, `(1,0,1)`, `(0,1,1)`
scaled by `2`, `-3` and `1/5`. -/
theorem collinear_scale_invariant_witness :
    ((2 : ℚ) ≠ 0 ∧ (-3 : ℚ) ≠ 0 ∧ (1 / 5 : ℚ) ≠ 0) ∧
    collinear (homg_point_2d.mk ((2 : ℚ) * 0) (2 * 0) (2 * 1))
              (homg_point_2d.mk ((-3 : ℚ) * 1) (-3 * 0) (-3 * 1))
              (homg_point_2d.mk ((1 / 5 : ℚ) * 0) (1 / 5 * 1) (1 / 5 * 1))
      = collinear (homg_point_2d.mk (0 : ℚ) 0 1) (homg_point_2d.mk 1 0 1)
          (homg_point_2d.mk 0 1 1) :=
  ⟨⟨by norm_num, by norm_num, by norm_num⟩,
    collinear_scale_invariant (homg_point_2d.mk (0 : ℚ) 0 1) (homg_point_2d.mk 1 0 1)
      (homg_point_2d.mk 0 1 1) 2 (-3) (1 / 5) (by norm_num) (by norm_num) (by norm_num)⟩

end collinearity

/-! ## Centre of two points -/

section centre_pair

variable [LinearOrderedField T]

/-- C10, as the spec states it, fails on the `double` code: for the finite
points `(1, 1, 2^-600)` and `(2, 3, 2^-600)` the product `w1 * w2` underflows
and `centre` has `w = 0`; and for `(1, 0, 1)` and `(2, 0, 3)`, where nothing
underflows, `centre` is `(5, 0, 6)` and `5/6` is not the `double` that the
average `(1/1 + 2/3)/2` evaluates to. -/
theorem centre_finite_counterexample :
    (double.to_bool (double.finite (1 / 2 ^ 600)) = true ∧
      double.nearest (1 / 2 ^ 600) = double.finite (1 / 2 ^ 600) ∧
      (binary64.centre
          (homg_point_2d.mk (double.finite 1) (double.finite 1)
            (double.finite (1 / 2 ^ 600)))
          (homg_point_2d.mk (double.finite 2) (double.finite 3)
            (double.finite (1 / 2 ^ 600)))).w = double.finite 0) ∧
    (binary64.centre
          (homg_point_2d.mk (double.finite 1) (double.finite 0) (double.finite 1))
          (homg_point_2d.mk (double.finite 2) (double.finite 0) (double.finite 3))
        = homg_point_2d.mk (double.finite 5) (double.finite 0) (double.finite 6) ∧
      double.finite 5 / double.finite 6
        = double.finite (7505999378950827 / 9007199254740992) ∧
      (double.finite 1 / double.finite 1 + double.finite 2 / double.finite 3)
          / double.finite 2
        = double.finite (3752999689475413 / 4503599627370496) ∧
      double.finite 5 / double.finite 6
        ≠ (double.finite 1 / double.finite 1 + double.finite 2 / double.finite 3)
          / double.finite 2) := by
  decide!

/-- C10, amended: with the coordinates taken in exact arithmetic, for every
two finite points `p1`, `p2` (`w1 ≠ 0` and `w2 ≠ 0`),
`centre(p1, p2) = (x1·w2 + x2·w1, y1·w2 + y2·w1, 2·w1·w2)` is a finite point
(its `w` is nonzero) whose nonhomogeneous coordinates are the averages
`((x1/w1 + x2/w2)/2, (y1/w1 + y2/w2)/2)`; and `centre((0,0,1), (4,0,1))`
is `(4, 0, 2)`, which normalizes to `(2, 0, 1)`. -/
theorem centre_finite (x1 y1 w1 x2 y2 w2 : T) (h1 : w1 ≠ 0) (h2 : w2 ≠ 0) :
    (centre (homg_point_2d.mk x1 y1 w1) (homg_point_2d.mk x2 y2 w2)
        = homg_point_2d.mk (x1 * w2 + x2 * w1) (y1 * w2 + y2 * w1) (2 * w1 * w2) ∧
     (centre (homg_point_2d.mk x1 y1 w1) (homg_point_2d.mk x2 y2 w2)).w ≠ 0 ∧
     (centre (homg_point_2d.mk x1 y1 w1) (homg_point_2d.mk x2 y2 w2)).x
        / (centre (homg_point_2d.mk x1 y1 w1) (homg_point_2d.mk x2 y2 w2)).w
        = (x1 / w1 + x2 / w2) / 2 ∧
     (centre (homg_point_2d.mk x1 y1 w1) (homg_point_2d.mk x2 y2 w2)).y
        / (centre (homg_point_2d.mk x1 y1 w1) (homg_point_2d.mk x2 y2 w2)).w
        = (y1 / w1 + y2 / w2) / 2) ∧
    (centre (homg_point_2d.mk (0 : T) 0 1) (homg_point_2d.mk 4 0 1)
        = homg_point_2d.mk 4 0 2 ∧
     (centre (homg_point_2d.mk (0 : T) 0 1) (homg_point_2d.mk 4 0 1)).x
        / (centre (homg_point_2d.mk (0 : T) 0 1) (homg_point_2d.mk 4 0 1)).w = 2 ∧
     (centre (homg_point_2d.mk (0 : T) 0 1) (homg_point_2d.mk 4 0 1)).y
        / (centre (homg_point_2d.mk (0 : T) 0 1) (homg_point_2d.mk 4 0 1)).w = 0 ∧
     (centre (homg_point_2d.mk (0 : T) 0 1) (homg_point_2d.mk 4 0 1)).w
        / (centre (homg_point_2d.mk (0 : T) 0 1) (homg_point_2d.mk 4 0 1)).w = 1) := by
  have h2ne : (2 : T) ≠ 0 := two_ne_zero
  refine ⟨⟨?_, ?_, ?_, ?_⟩, ?_, ?_, ?_, ?_⟩
  · simp only [centre, homg_point_2d.mk.injEq, true_and]
    ring
  · simp only [centre]
    exact mul_ne_zero (mul_ne_zero h1 h2) h2ne
  · simp only [centre]
    field_simp
  · simp only [centre]
    field_simp
  · simp only [centre, homg_point_2d.mk.injEq]
    norm_num
  · simp only [centre]
    norm_num
  · simp only [centre]
    norm_num
  · simp only [centre]
    norm_num

/-- Witness for C10 at the finite points `(1, 2, 3)` and `(4, 5, 6)`. -/
theorem centre_finite_witness :
    ((3 : ℚ) ≠ 0 ∧ (6 : ℚ) ≠ 0) ∧
    (centre (homg_point_2d.mk (1 : ℚ) 2 3) (homg_point_2d.mk 4 5 6)).x
        / (centre (homg_point_2d.mk (1 : ℚ) 2 3) (homg_point_2d.mk 4 5 6)).w
        = ((1 : ℚ) / 3 + 4 / 6) / 2 :=
  ⟨⟨by norm_num, by norm_num⟩,
    (centre_finite (1 : ℚ) 2 3 4 5 6 (by norm_num) (by norm_num)).1.2.2.1⟩

/-- C12: if only one of the two points is at infinity, `centre` returns that
point: for every `p1` with `w1 = 0` and every `p2` with `w2 ≠ 0`,
`centre(p1, p2)` and `centre(p2, p1)` both equal `(w2·x1, w2·y1, 0)`, the
multiple of `p1` by the nonzero scalar `w2`; and
`centre((1,0,0), (0,2,1)) = (1,0,0)`. -/
theorem centre_one_ideal (x1 y1 w1 x2 y2 w2 : T) (h1 : w1 = 0) (h2 : w2 ≠ 0) :
    (centre (homg_point_2d.mk x1 y1 w1) (homg_point_2d.mk x2 y2 w2)
        = homg_point_2d.mk (w2 * x1) (w2 * y1) 0 ∧
     centre (homg_point_2d.mk x2 y2 w2) (homg_point_2d.mk x1 y1 w1)
        = homg_point_2d.mk (w2 * x1) (w2 * y1) 0 ∧
     ∃ k : T, k ≠ 0 ∧
       centre (homg_point_2d.mk x1 y1 w1) (homg_point_2d.mk x2 y2 w2)
          = homg_point_2d.mk (k * x1) (k * y1) (k * w1) ∧
       centre (homg_point_2d.mk x2 y2 w2) (homg_point_2d.mk x1 y1 w1)
          = homg_point_2d.mk (k * x1) (k * y1) (k * w1)) ∧
    centre (homg_point_2d.mk (1 : T) 0 0) (homg_point_2d.mk 0 2 1)
        = homg_point_2d.mk 1 0 0 := by
  subst h1
  have e1 : centre (homg_point_2d.mk x1 y1 0) (homg_point_2d.mk x2 y2 w2)
      = homg_point_2d.mk (w2 * x1) (w2 * y1) 0 := by
    simp only [centre, homg_point_2d.mk.injEq]
    refine ⟨by ring, by ring, by ring⟩
  have e2 : centre (homg_point_2d.mk x2 y2 w2) (homg_point_2d.mk x1 y1 0)
      = homg_point_2d.mk (w2 * x1) (w2 * y1) 0 := by
    simp only [centre, homg_point_2d.mk.injEq]
    refine ⟨by ring, by ring, by ring⟩
  refine ⟨⟨e1, e2, w2, h2, ?_, ?_⟩, ?_⟩
  · rw [e1, mul_zero]
  · rw [e2, mul_zero]
  · simp only [centre, homg_point_2d.mk.injEq]
    norm_num

/-- Witness for C12 at the ideal point `(3, 4, 0)` and the finite point
`(5, 6, 2)`. -/
theorem centre_one_ideal_witness :
    ((0 : ℚ) = 0 ∧ (2 : ℚ) ≠ 0) ∧
    centre (homg_point_2d.mk (3 : ℚ) 4 0) (homg_point_2d.mk 5 6 2)
      = homg_point_2d.mk (2 * 3) (2 * 4) 0 :=
  ⟨⟨rfl, by norm_num⟩, (centre_one_ideal (3 : ℚ) 4 0 5 6 2 rfl (by norm_num)).1.1⟩

/-- C13, as the spec states it, fails: for the finite point `(0, 2, 1)` and the
ideal point `(1, 0, 0)` (not the zero triple), `centre` is `(1, 0, 0)`, which
is no nonzero scalar multiple of the finite point. -/
theorem centre_finite_ideal_counterexample :
    ((1 : ℚ) ≠ 0 ∧ (0 : ℚ) = 0 ∧
      homg_point_2d.mk (1 : ℚ) 0 0 ≠ homg_point_2d.mk 0 0 0) ∧
    centre (homg_point_2d.mk (0 : ℚ) 2 1) (homg_point_2d.mk 1 0 0)
      = homg_point_2d.mk 1 0 0 ∧
    ¬ ∃ k : ℚ, k ≠ 0 ∧
      centre (homg_point_2d.mk (0 : ℚ) 2 1) (homg_point_2d.mk 1 0 0)
        = homg_point_2d.mk (k * 0) (k * 2) (k * 1) := by
  refine ⟨⟨by norm_num, rfl, ?_⟩, ?_, ?_⟩
  · simp
  · simp [centre]
  · rintro ⟨k, hk, h⟩
    simp [centre] at h

/-- C13, amended: when one input of the pairwise `centre` is finite and the
other ideal, `centre` returns the ideal point: for every `p1` with `w1 ≠ 0` and
every `p2` with `w2 = 0`, `centre(p1, p2) = (w1·x2, w1·y2, 0)`, the multiple of
`p2` by the nonzero scalar `w1`, and it is never a nonzero scalar multiple of
the finite point `p1`. -/
theorem centre_finite_ideal (x1 y1 w1 x2 y2 w2 : T) (h1 : w1 ≠ 0) (h2 : w2 = 0) :
    centre (homg_point_2d.mk x1 y1 w1) (homg_point_2d.mk x2 y2 w2)
        = homg_point_2d.mk (w1 * x2) (w1 * y2) 0 ∧
    (∃ k : T, k ≠ 0 ∧
       centre (homg_point_2d.mk x1 y1 w1) (homg_point_2d.mk x2 y2 w2)
          = homg_point_2d.mk (k * x2) (k * y2) (k * w2)) ∧
    ¬ ∃ k : T, k ≠ 0 ∧
       centre (homg_point_2d.mk x1 y1 w1) (homg_point_2d.mk x2 y2 w2)
          = homg_point_2d.mk (k * x1) (k * y1) (k * w1) := by
  subst h2
  have e : centre (homg_point_2d.mk x1 y1 w1) (homg_point_2d.mk x2 y2 0)
      = homg_point_2d.mk (w1 * x2) (w1 * y2) 0 := by
    simp only [centre, homg_point_2d.mk.injEq]
    refine ⟨by ring, by ring, by ring⟩
  refine ⟨e, ⟨w1, h1, ?_⟩, ?_⟩
  · rw [e, mul_zero]
  · rintro ⟨k, hk, hkp⟩
    rw [e] at hkp
    have hw : (0 : T) = k * w1 := congrArg homg_point_2d.w hkp
    exact mul_ne_zero hk h1 hw.symm

/-- Witness for the amended C13 at the finite point `(0, 2, 1)` and the ideal
point `(1, 0, 0)`. -/
theorem centre_finite_ideal_witness :
    ((1 : ℚ) ≠ 0 ∧ (0 : ℚ) = 0) ∧
    centre (homg_point_2d.mk (0 : ℚ) 2 1) (homg_point_2d.mk 1 0 0)
      = homg_point_2d.mk (1 * 1) (1 * 0) 0 :=
  ⟨⟨by norm_num, rfl⟩, (centre_finite_ideal (0 : ℚ) 2 1 1 0 0 (by norm_num) rfl).1⟩

/-- C19: when both inputs are ideal, the pairwise `centre` signals no error and
returns the zero triple: for every `p1`, `p2` with `w1 = 0` and `w2 = 0`,
`centre(p1, p2) = (0, 0, 0)`, whose `w` is `0`. -/
theorem centre_both_ideal (x1 y1 w1 x2 y2 w2 : T) (h1 : w1 = 0) (h2 : w2 = 0) :
    centre (homg_point_2d.mk x1 y1 w1) (homg_point_2d.mk x2 y2 w2)
        = homg_point_2d.mk 0 0 0 ∧
    (centre (homg_point_2d.mk x1 y1 w1) (homg_point_2d.mk x2 y2 w2)).w = 0 := by
  subst h1 h2
  simp [centre]

/-- Witness for C19 at the ideal points `(1, 0, 0)` and `(0, 1, 0)`. -/
theorem centre_both_ideal_witness :
    ((0 : ℚ) = 0 ∧ (0 : ℚ) = 0) ∧
    centre (homg_point_2d.mk (1 : ℚ) 0 0) (homg_point_2d.mk 0 1 0)
      = homg_point_2d.mk 0 0 0 :=
  ⟨⟨rfl, rfl⟩, (centre_both_ideal (1 : ℚ) 0 0 0 1 0 rfl rfl).1⟩

end centre_pair

/-! ## Midpoint and ratio -/

section midpoint_ratio

variable [LinearOrderedField T]

theorem midpoint_of_finite (x1 y1 w1 x2 y2 w2 f : T) (h1 : w1 ≠ 0) (h2 : w2 ≠ 0) :
    midpoint (homg_point_2d.mk x1 y1 w1) (homg_point_2d.mk x2 y2 w2) f
      = some (homg_point_2d.mk (x1 + f * (x2 / w2 - x1 / w1) * w1)
          (y1 + f * (y2 / w2 - y1 / w1) * w1) w1) := by
  unfold midpoint
  rw [operator_minus_of_finite _ _ h2 h1]
  rfl

theorem sq_add_sq_ne_zero_of_ne {a b : T} (h : ¬ (a = 0 ∧ b = 0)) : a * a + b * b ≠ 0 := by
  intro hz
  have ha : 0 ≤ a * a := mul_self_nonneg a
  have hb : 0 ≤ b * b := mul_self_nonneg b
  have ha0 : a * a = 0 := by linarith
  have hb0 : b * b = 0 := by linarith
  exact h ⟨mul_self_eq_zero.mp ha0, mul_self_eq_zero.mp hb0⟩

theorem ratio_midpoint_aux (x1 y1 w1 x2 y2 w2 f : T) (h1 : w1 ≠ 0) (h2 : w2 ≠ 0)
    (hne : ¬ (x1 / w1 = x2 / w2 ∧ y1 / w1 = y2 / w2)) :
    ratio (homg_point_2d.mk x1 y1 w1) (homg_point_2d.mk x2 y2 w2)
        (homg_point_2d.mk (x1 + f * (x2 / w2 - x1 / w1) * w1)
          (y1 + f * (y2 / w2 - y1 / w1) * w1) w1)
      = some f := by
  have hd : (x2 / w2 - x1 / w1) * (x2 / w2 - x1 / w1)
      + (y2 / w2 - y1 / w1) * (y2 / w2 - y1 / w1) ≠ 0 := by
    apply sq_add_sq_ne_zero_of_ne
    rintro ⟨hx, hy⟩
    exact hne ⟨(sub_eq_zero.mp hx).symm, (sub_eq_zero.mp hy).symm⟩
  have hux : (x1 + f * (x2 / w2 - x1 / w1) * w1) / w1 - x1 / w1
      = f * (x2 / w2 - x1 / w1) := by
    field_simp
    ring
  have huy : (y1 + f * (y2 / w2 - y1 / w1) * w1) / w1 - y1 / w1
      = f * (y2 / w2 - y1 / w1) := by
    field_simp
    ring
  unfold ratio
  rw [operator_minus_of_finite _ _ h1 h1, operator_minus_of_finite _ _ h2 h1]
  simp only [vector_2d.quotient, dot_product, hux, huy, Option.some.injEq]
  rw [div_eq_iff hd]
  ring

/-- C11, as the spec states it, fails on the `double` code: for the finite
points `(2, 0, 1)` and `(1, 0, 3)`, `midpoint(p1, p2, 0.5)` is
`(1.1666666666666665, 0, 1)` and `centre(p1, p2)` is `(7, 0, 6)`; their `x/w`
differ, both as doubles and as exact quotients of the stored values. -/
theorem midpoint_half_eq_centre_counterexample :
    (double.to_bool (double.finite 1) = true ∧ double.to_bool (double.finite 3) = true) ∧
    binary64.midpoint
        (homg_point_2d.mk (double.finite 2) (double.finite 0) (double.finite 1))
        (homg_point_2d.mk (double.finite 1) (double.finite 0) (double.finite 3))
        (double.finite (1 / 2))
      = some (homg_point_2d.mk (double.finite (2627099782632789 / 2251799813685248))
          (double.finite 0) (double.finite 1)) ∧
    binary64.centre
        (homg_point_2d.mk (double.finite 2) (double.finite 0) (double.finite 1))
        (homg_point_2d.mk (double.finite 1) (double.finite 0) (double.finite 3))
      = homg_point_2d.mk (double.finite 7) (double.finite 0) (double.finite 6) ∧
    double.finite (2627099782632789 / 2251799813685248) / double.finite 1
      ≠ double.finite 7 / double.finite 6 ∧
    (2627099782632789 / 2251799813685248 : ℚ) / 1 ≠ 7 / 6 := by
  decide!

/-- C11, amended: with the coordinates taken in exact arithmetic, for every two
finite points `p1`, `p2` (`w1 ≠ 0` and `w2 ≠ 0`), `midpoint(p1, p2, 0.5)` and
`centre(p1, p2)` are the same point after normalization: the midpoint is
produced, both have nonzero `w`, and their nonhomogeneous coordinates
`(x/w, y/w)` are equal. -/
theorem midpoint_half_eq_centre (x1 y1 w1 x2 y2 w2 : T) (h1 : w1 ≠ 0) (h2 : w2 ≠ 0) :
    ∃ m : homg_point_2d T,
      midpoint (homg_point_2d.mk x1 y1 w1) (homg_point_2d.mk x2 y2 w2) (1 / 2) = some m ∧
      m.w ≠ 0 ∧
      (centre (homg_point_2d.mk x1 y1 w1) (homg_point_2d.mk x2 y2 w2)).w ≠ 0 ∧
      m.x / m.w
        = (centre (homg_point_2d.mk x1 y1 w1) (homg_point_2d.mk x2 y2 w2)).x
          / (centre (homg_point_2d.mk x1 y1 w1) (homg_point_2d.mk x2 y2 w2)).w ∧
      m.y / m.w
        = (centre (homg_point_2d.mk x1 y1 w1) (homg_point_2d.mk x2 y2 w2)).y
          / (centre (homg_point_2d.mk x1 y1 w1) (homg_point_2d.mk x2 y2 w2)).w := by
  have h2ne : (2 : T) ≠ 0 := two_ne_zero
  refine ⟨_, midpoint_of_finite x1 y1 w1 x2 y2 w2 (1 / 2) h1 h2, h1, ?_, ?_, ?_⟩
  · simp only [centre]
    exact mul_ne_zero (mul_ne_zero h1 h2) h2ne
  · simp only [centre]
    field_simp
    ring
  · simp only [centre]
    field_simp
    ring

/-- Witness for C11 at the finite points `(1, 2, 3)` and `(4, 5, 6)`. -/
theorem midpoint_half_eq_centre_witness :
    ((3 : ℚ) ≠ 0 ∧ (6 : ℚ) ≠ 0) ∧
    ∃ m : homg_point_2d ℚ,
      midpoint (homg_point_2d.mk (1 : ℚ) 2 3) (homg_point_2d.mk 4 5 6) (1 / 2) = some m ∧
      m.w ≠ 0 ∧
      (centre (homg_point_2d.mk (1 : ℚ) 2 3) (homg_point_2d.mk 4 5 6)).w ≠ 0 ∧
      m.x / m.w
        = (centre (homg_point_2d.mk (1 : ℚ) 2 3) (homg_point_2d.mk 4 5 6)).x
          / (centre (homg_point_2d.mk (1 : ℚ) 2 3) (homg_point_2d.mk 4 5 6)).w ∧
      m.y / m.w
        = (centre (homg_point_2d.mk (1 : ℚ) 2 3) (homg_point_2d.mk 4 5 6)).y
          / (centre (homg_point_2d.mk (1 : ℚ) 2 3) (homg_point_2d.mk 4 5 6)).w :=
  ⟨⟨by norm_num, by norm_num⟩,
    midpoint_half_eq_centre (1 : ℚ) 2 3 4 5 6 (by norm_num) (by norm_num)⟩

/-- C16, as the spec states it, fails on the `double` code: for the finite
points `(0.1, 0.1, 1)` and `(1, 1, 1)` (with `0.1` the nearest `double`), the
midpoint for `f = 0.5` is `(0.55, 0.55, 1)` and `ratio` of it is
`0.5000000000000001`, not `0.5`. -/
theorem ratio_midpoint_counterexample :
    (double.to_bool (double.finite 1) = true ∧
      double.nearest (1 / 10) ≠ double.finite 1) ∧
    binary64.midpoint
        (homg_point_2d.mk (double.nearest (1 / 10)) (double.nearest (1 / 10))
          (double.finite 1))
        (homg_point_2d.mk (double.finite 1) (double.finite 1) (double.finite 1))
        (double.finite (1 / 2))
      = some (homg_point_2d.mk (double.finite (2476979795053773 / 4503599627370496))
          (double.finite (2476979795053773 / 4503599627370496)) (double.finite 1)) ∧
    binary64.ratio
        (homg_point_2d.mk (double.nearest (1 / 10)) (double.nearest (1 / 10))
          (double.finite 1))
        (homg_point_2d.mk (double.finite 1) (double.finite 1) (double.finite 1))
        (homg_point_2d.mk (double.finite (2476979795053773 / 4503599627370496))
          (double.finite (2476979795053773 / 4503599627370496)) (double.finite 1))
      = some (double.finite (4503599627370497 / 9007199254740992)) ∧
    double.finite (4503599627370497 / 9007199254740992) ≠ double.finite (1 / 2) := by
  decide!

/-- C16, amended: with the coordinates taken in exact arithmetic, `ratio`
inverts `midpoint`: for every two finite points `p1`, `p2` with distinct
nonhomogeneous positions and every scalar `f`, the midpoint
`midpoint(p1, p2, f)` is produced and `ratio(p1, p2, midpoint(p1, p2, f)) = f`,
the quotient of two vectors being `dot(u,v)/dot(v,v)`; in particular with the
default `f = 0.5` the ratio is `0.5`. -/
theorem ratio_midpoint (x1 y1 w1 x2 y2 w2 f : T) (h1 : w1 ≠ 0) (h2 : w2 ≠ 0)
    (hne : ¬ (x1 / w1 = x2 / w2 ∧ y1 / w1 = y2 / w2)) :
    (∃ m : homg_point_2d T,
      midpoint (homg_point_2d.mk x1 y1 w1) (homg_point_2d.mk x2 y2 w2) f = some m ∧
      ratio (homg_point_2d.mk x1 y1 w1) (homg_point_2d.mk x2 y2 w2) m = some f) ∧
    (∃ m : homg_point_2d T,
      midpoint (homg_point_2d.mk x1 y1 w1) (homg_point_2d.mk x2 y2 w2) (1 / 2) = some m ∧
      ratio (homg_point_2d.mk x1 y1 w1) (homg_point_2d.mk x2 y2 w2) m = some (1 / 2)) :=
  ⟨⟨_, midpoint_of_finite x1 y1 w1 x2 y2 w2 f h1 h2,
      ratio_midpoint_aux x1 y1 w1 x2 y2 w2 f h1 h2 hne⟩,
   ⟨_, midpoint_of_finite x1 y1 w1 x2 y2 w2 (1 / 2) h1 h2,
      ratio_midpoint_aux x1 y1 w1 x2 y2 w2 (1 / 2) h1 h2 hne⟩⟩

/-- Witness for C16 at the finite points `(0, 0, 2)` and `(3, 6, 3)` (positions
`(0, 0)` and `(1, 2)`) with `f = -1`. -/
theorem ratio_midpoint_witness :
    ((2 : ℚ) ≠ 0 ∧ (3 : ℚ) ≠ 0 ∧ ¬ ((0 : ℚ) / 2 = 3 / 3 ∧ (0 : ℚ) / 2 = 6 / 3)) ∧
    ∃ m : homg_point_2d ℚ,
      midpoint (homg_point_2d.mk (0 : ℚ) 0 2) (homg_point_2d.mk 3 6 3) (-1) = some m ∧
      ratio (homg_point_2d.mk (0 : ℚ) 0 2) (homg_point_2d.mk 3 6 3) m = some (-1) :=
  ⟨⟨by norm_num, by norm_num, by norm_num⟩,
    (ratio_midpoint (0 : ℚ) 0 2 3 6 3 (-1) (by norm_num) (by norm_num) (by norm_num)).1⟩

/-- C20, as the spec states it, fails on the code: in `double`, for the point
`(0.1, 0, 1)` and the vector `(0.2, 0)` (nearest doubles), `(p + v) − p` is
`(0.20000000000000004, 0)`, not `v`; and with the integral coordinate type, for
`p = (-1, 0, 2)` and `v = (1, 0)`, `(p + v) − p` is `(0, 0)`. -/
theorem minus_plus_cancel_counterexample :
    (double.to_bool (double.finite 1) = true ∧
      binary64.operator_minus
          (binary64.operator_plus
            (homg_point_2d.mk (double.nearest (1 / 10)) (double.finite 0) (double.finite 1))
            (vector_2d.mk (double.nearest (2 / 10)) (double.finite 0)))
          (homg_point_2d.mk (double.nearest (1 / 10)) (double.finite 0) (double.finite 1))
        = some (vector_2d.mk (double.finite (7205759403792795 / 36028797018963968))
            (double.finite 0)) ∧
      double.nearest (2 / 10) = double.finite (3602879701896397 / 18014398509481984) ∧
      vector_2d.mk (double.finite (7205759403792795 / 36028797018963968)) (double.finite 0)
        ≠ vector_2d.mk (double.nearest (2 / 10)) (double.finite 0)) ∧
    ((2 : ℤ) ≠ 0 ∧
      @operator_minus ℤ _ int_div _
          (operator_plus (homg_point_2d.mk (-1) 0 2) (vector_2d.mk 1 0))
          (homg_point_2d.mk (-1) 0 2)
        = some (vector_2d.mk 0 0) ∧
      vector_2d.mk (0 : ℤ) 0 ≠ vector_2d.mk 1 0) := by
  decide!

/-- C20, amended: with the coordinates taken in exact arithmetic, point
difference undoes vector addition: for every finite point `p` (`w ≠ 0`) and
every vector `v`, the difference `(p + v) − p` is defined and equals `v`,
whatever the homogeneous scaling of `p`. -/
theorem minus_plus_cancel (p : homg_point_2d T) (v : vector_2d T) (hw : p.w ≠ 0) :
    operator_minus (operator_plus p v) p = some v := by
  have hw2 : (operator_plus p v).w ≠ 0 := hw
  rw [operator_minus_of_finite _ _ hw2 hw]
  obtain ⟨vx, vy⟩ := v
  simp only [operator_plus, Option.some.injEq, vector_2d.mk.injEq]
  constructor
  · field_simp
  · field_simp

/-- Witness for C20 at the finite point `(2, 4, 2)` and the vector `(5, -7)`. -/
theorem minus_plus_cancel_witness :
    (2 : ℚ) ≠ 0 ∧
    operator_minus (operator_plus (homg_point_2d.mk (2 : ℚ) 4 2) (vector_2d.mk 5 (-7)))
        (homg_point_2d.mk 2 4 2)
      = some (vector_2d.mk 5 (-7)) :=
  ⟨by norm_num,
    minus_plus_cancel (homg_point_2d.mk (2 : ℚ) 4 2) (vector_2d.mk 5 (-7))
      (by norm_num)⟩

end midpoint_ratio

/-! ## Centre of a vector of points -/

section centre_of_vector

theorem centre_vector_foldl [Ring T] [Div T] (v : List (homg_point_2d T)) (a b : T) :
    v.foldl (fun (acc : T × T) p => (acc.1 + p.x / p.w, acc.2 + p.y / p.w)) (a, b)
      = (a + (v.map fun p => p.x / p.w).sum, b + (v.map fun p => p.y / p.w).sum) := by
  induction v generalizing a b with
  | nil => simp
  | cons p v ih =>
    rw [List.foldl_cons, ih]
    simp only [List.map_cons, List.sum_cons, add_assoc]

theorem centre_vector_of_ne_nil [Ring T] [Div T] (v : List (homg_point_2d T)) (hne : v ≠ []) :
    centre_vector v
      = some (homg_point_2d.mk (v.map fun p => p.x / p.w).sum
          (v.map fun p => p.y / p.w).sum (v.length : T)) := by
  unfold centre_vector
  simp only
  rw [if_pos (List.length_pos.mpr hne), centre_vector_foldl, zero_add, zero_add]

variable [LinearOrderedField T]

/-- C14: the n-ary `centre` fails (assertion `n > 0`) on the empty list and
returns no point for it; for every non-empty list of `n` finite points it
returns the point `(Σ x_i/w_i, Σ y_i/w_i, n)`, so that `centre([p])` is
`(x/w, y/w, 1)` for every finite `p`. -/
theorem centre_vector_spec :
    (centre_vector ([] : List (homg_point_2d T)) = none ∧
      ∀ q : homg_point_2d T, centre_vector ([] : List (homg_point_2d T)) ≠ some q) ∧
    (∀ v : List (homg_point_2d T), v ≠ [] → (∀ p ∈ v, p.w ≠ 0) →
      centre_vector v
        = some (homg_point_2d.mk (v.map fun p => p.x / p.w).sum
            (v.map fun p => p.y / p.w).sum (v.length : T))) ∧
    (∀ p : homg_point_2d T, p.w ≠ 0 →
      centre_vector [p] = some (homg_point_2d.mk (p.x / p.w) (p.y / p.w) 1)) := by
  refine ⟨⟨rfl, fun q h => ?_⟩, fun v hne _ => centre_vector_of_ne_nil v hne, fun p _ => ?_⟩
  · cases h
  · rw [centre_vector_of_ne_nil [p] (List.cons_ne_nil p [])]
    simp

/-- Witness for C14 at the list of the finite points `(2, 4, 2)` and
`(3, 9, 3)`. -/
theorem centre_vector_spec_witness :
    ([homg_point_2d.mk (2 : ℚ) 4 2, homg_point_2d.mk 3 9 3] ≠ [] ∧
      ∀ p ∈ [homg_point_2d.mk (2 : ℚ) 4 2, homg_point_2d.mk 3 9 3], p.w ≠ 0) ∧
    centre_vector [homg_point_2d.mk (2 : ℚ) 4 2, homg_point_2d.mk 3 9 3]
      = some (homg_point_2d.mk
          ([homg_point_2d.mk (2 : ℚ) 4 2, homg_point_2d.mk 3 9 3].map fun p => p.x / p.w).sum
          ([homg_point_2d.mk (2 : ℚ) 4 2, homg_point_2d.mk 3 9 3].map fun p => p.y / p.w).sum
          (([homg_point_2d.mk (2 : ℚ) 4 2, homg_point_2d.mk 3 9 3].length : ℕ) : ℚ)) :=
  have hne : [homg_point_2d.mk (2 : ℚ) 4 2, homg_point_2d.mk 3 9 3] ≠ [] := by simp
  have hw : ∀ p ∈ [homg_point_2d.mk (2 : ℚ) 4 2, homg_point_2d.mk 3 9 3], p.w ≠ 0 := by
    simp
  ⟨⟨hne, hw⟩, (centre_vector_spec).2.1 _ hne hw⟩

/-- C15: with the integral coordinate type (truncating integer division, no
overflow) and every weight `w_i = 1`, the n-ary `centre` of every non-empty list
returns exactly `(Σ x_i, Σ y_i, n)`: no rounding error is introduced, and the
true centroid, the mean of the positions `(x_i/w_i, y_i/w_i)` over the
rationals, is the exact rational `(Σ x_i / n, Σ y_i / n)`. -/
theorem centre_vector_int_exact (v : List (homg_point_2d ℤ)) (hne : v ≠ [])
    (hw : ∀ p ∈ v, p.w = 1) :
    @centre_vector ℤ _ int_div v
      = some (homg_point_2d.mk (v.map fun p => p.x).sum (v.map fun p => p.y).sum
          (v.length : ℤ)) ∧
    (v.map fun p => (p.x : ℚ) / (p.w : ℚ)).sum / (v.length : ℚ)
      = (((v.map fun p => p.x).sum : ℤ) : ℚ) / ((v.length : ℤ) : ℚ) ∧
    (v.map fun p => (p.y : ℚ) / (p.w : ℚ)).sum / (v.length : ℚ)
      = (((v.map fun p => p.y).sum : ℤ) : ℚ) / ((v.length : ℤ) : ℚ) := by
  have hx : (v.map fun p => @HDiv.hDiv ℤ ℤ ℤ (@instHDiv ℤ int_div) p.x p.w)
      = v.map fun p => p.x := by
    apply List.map_congr_left
    intro p hp
    show Int.tdiv p.x p.w = p.x
    rw [hw p hp, Int.tdiv_one]
  have hy : (v.map fun p => @HDiv.hDiv ℤ ℤ ℤ (@instHDiv ℤ int_div) p.y p.w)
      = v.map fun p => p.y := by
    apply List.map_congr_left
    intro p hp
    show Int.tdiv p.y p.w = p.y
    rw [hw p hp, Int.tdiv_one]
  have qx : (v.map fun p => (p.x : ℚ) / (p.w : ℚ)) = v.map fun p => (p.x : ℚ) := by
    apply List.map_congr_left
    intro p hp
    simp [hw p hp]
  have qy : (v.map fun p => (p.y : ℚ) / (p.w : ℚ)) = v.map fun p => (p.y : ℚ) := by
    apply List.map_congr_left
    intro p hp
    simp [hw p hp]
  have cx : ∀ l : List (homg_point_2d ℤ),
      (l.map fun p => (p.x : ℚ)).sum = (((l.map fun p => p.x).sum : ℤ) : ℚ) := by
    intro l
    induction l with
    | nil => simp
    | cons p l ih => simp [ih]
  have cy : ∀ l : List (homg_point_2d ℤ),
      (l.map fun p => (p.y : ℚ)).sum = (((l.map fun p => p.y).sum : ℤ) : ℚ) := by
    intro l
    induction l with
    | nil => simp
    | cons p l ih => simp [ih]
  refine ⟨?_, ?_, ?_⟩
  · rw [@centre_vector_of_ne_nil ℤ _ int_div v hne, hx, hy]
  · rw [qx, cx]
    simp
  · rw [qy, cy]
    simp

/-- Witness for C15 at the list of the integer points `(1, 2, 1)`, `(2, 5, 1)`
and `(4, 0, 1)`. -/
theorem centre_vector_int_exact_witness :
    ([homg_point_2d.mk (1 : ℤ) 2 1, homg_point_2d.mk 2 5 1, homg_point_2d.mk 4 0 1] ≠ [] ∧
      ∀ p ∈ [homg_point_2d.mk (1 : ℤ) 2 1, homg_point_2d.mk 2 5 1, homg_point_2d.mk 4 0 1],
        p.w = 1) ∧
    @centre_vector ℤ _ int_div
        [homg_point_2d.mk 1 2 1, homg_point_2d.mk 2 5 1, homg_point_2d.mk 4 0 1]
      = some (homg_point_2d.mk 7 7 3) :=
  have hne : [homg_point_2d.mk (1 : ℤ) 2 1, homg_point_2d.mk 2 5 1,
      homg_point_2d.mk 4 0 1] ≠ [] := by simp
  have hw : ∀ p ∈ [homg_point_2d.mk (1 : ℤ) 2 1, homg_point_2d.mk 2 5 1,
      homg_point_2d.mk 4 0 1], p.w = 1 := by simp
  ⟨⟨hne, hw⟩, (centre_vector_int_exact _ hne hw).1⟩

end centre_of_vector

/-! ## Cross ratio -/

section cross_ratio_line

variable [LinearOrderedField T]

theorem operator_minus_on_line (ox oy dx dy s t u w : T) (hu : u ≠ 0) (hw : w ≠ 0) :
    operator_minus (homg_point_2d.mk (u * (ox + s * dx)) (u * (oy + s * dy)) u)
        (homg_point_2d.mk (w * (ox + t * dx)) (w * (oy + t * dy)) w)
      = some (vector_2d.mk ((s - t) * dx) ((s - t) * dy)) := by
  rw [operator_minus_of_finite _ _ hu hw]
  simp only [Option.some.injEq, vector_2d.mk.injEq]
  constructor
  · field_simp
    ring
  · field_simp
    ring

theorem quotient_parallel (a b dx dy : T) (hd : ¬ (dx = 0 ∧ dy = 0)) (hb : b ≠ 0) :
    vector_2d.quotient (vector_2d.mk (a * dx) (a * dy)) (vector_2d.mk (b * dx) (b * dy))
      = a / b := by
  have hdd : dx * dx + dy * dy ≠ 0 := sq_add_sq_ne_zero_of_ne hd
  simp only [vector_2d.quotient, dot_product]
  have hden : b * dx * (b * dx) + b * dy * (b * dy) ≠ 0 := by
    have e : b * dx * (b * dx) + b * dy * (b * dy) = b * b * (dx * dx + dy * dy) := by ring
    rw [e]
    exact mul_ne_zero (mul_ne_zero hb hb) hdd
  rw [div_eq_div_iff hden hb]
  ring

/-- C17: for four collinear finite points, written as the points of parameters
`t1, t2, t3, t4` on the line `o + t·d` (`d ≠ 0`) with any nonzero weights, and
with `p1 ≠ p4`, `p2 ≠ p4`, `p2 ≠ p3` (no divisor is zero),
`cross_ratio(p1, p2, p3, p4)` is produced and equals `((t1−t3)/(t1−t4)) / ((t2−t3)/(t2−t4))
= (t1−t3)(t2−t4) / ((t1−t4)(t2−t3))`; for the points `(0,0,1)`, `(1,0,1)`,
`(2,0,1)`, `(3,0,1)` it equals `4/3`. -/
theorem cross_ratio_collinear (ox oy dx dy t1 t2 t3 t4 w1 w2 w3 w4 : T)
    (hd : ¬ (dx = 0 ∧ dy = 0))
    (hw1 : w1 ≠ 0) (hw2 : w2 ≠ 0) (hw3 : w3 ≠ 0) (hw4 : w4 ≠ 0)
    (h14 : t1 ≠ t4) (h24 : t2 ≠ t4) (h23 : t2 ≠ t3) :
    cross_ratio
        (homg_point_2d.mk (w1 * (ox + t1 * dx)) (w1 * (oy + t1 * dy)) w1)
        (homg_point_2d.mk (w2 * (ox + t2 * dx)) (w2 * (oy + t2 * dy)) w2)
        (homg_point_2d.mk (w3 * (ox + t3 * dx)) (w3 * (oy + t3 * dy)) w3)
        (homg_point_2d.mk (w4 * (ox + t4 * dx)) (w4 * (oy + t4 * dy)) w4)
      = some ((t1 - t3) / (t1 - t4) / ((t2 - t3) / (t2 - t4))) ∧
    (t1 - t4 ≠ 0 ∧ t2 - t4 ≠ 0 ∧ (t2 - t3) / (t2 - t4) ≠ 0) ∧
    (t1 - t3) / (t1 - t4) / ((t2 - t3) / (t2 - t4))
      = (t1 - t3) * (t2 - t4) / ((t1 - t4) * (t2 - t3)) ∧
    cross_ratio (homg_point_2d.mk (0 : T) 0 1) (homg_point_2d.mk 1 0 1)
        (homg_point_2d.mk 2 0 1) (homg_point_2d.mk 3 0 1)
      = some (4 / 3) := by
  refine ⟨?_, ⟨sub_ne_zero.mpr h14, sub_ne_zero.mpr h24,
    div_ne_zero (sub_ne_zero.mpr h23) (sub_ne_zero.mpr h24)⟩, div_div_div_eq _ _ _ _, ?_⟩
  · unfold cross_ratio
    rw [operator_minus_on_line ox oy dx dy t1 t3 w1 w3 hw1 hw3,
      operator_minus_on_line ox oy dx dy t1 t4 w1 w4 hw1 hw4,
      operator_minus_on_line ox oy dx dy t2 t3 w2 w3 hw2 hw3,
      operator_minus_on_line ox oy dx dy t2 t4 w2 w4 hw2 hw4]
    simp only
    rw [quotient_parallel _ _ dx dy hd (sub_ne_zero.mpr h14),
      quotient_parallel _ _ dx dy hd (sub_ne_zero.mpr h24)]
  · have h1 : (1 : T) ≠ 0 := one_ne_zero
    unfold cross_ratio
    rw [operator_minus_of_finite _ _ h1 h1, operator_minus_of_finite _ _ h1 h1,
      operator_minus_of_finite _ _ h1 h1, operator_minus_of_finite _ _ h1 h1]
    simp only [vector_2d.quotient, dot_product, Option.some.injEq]
    norm_num

/-- Witness for C17 at the points of parameters `0, 1, 2, 3` on the line
through `(1, 1)` with direction `(1, 2)`, with weights `1, 2, 3, 4`. -/
theorem cross_ratio_collinear_witness :
    (¬ ((1 : ℚ) = 0 ∧ (2 : ℚ) = 0) ∧ (0 : ℚ) ≠ 3 ∧ (1 : ℚ) ≠ 3 ∧ (1 : ℚ) ≠ 2) ∧
    cross_ratio
        (homg_point_2d.mk ((1 : ℚ) * (1 + 0 * 1)) (1 * (1 + 0 * 2)) 1)
        (homg_point_2d.mk ((2 : ℚ) * (1 + 1 * 1)) (2 * (1 + 1 * 2)) 2)
        (homg_point_2d.mk ((3 : ℚ) * (1 + 2 * 1)) (3 * (1 + 2 * 2)) 3)
        (homg_point_2d.mk ((4 : ℚ) * (1 + 3 * 1)) (4 * (1 + 3 * 2)) 4)
      = some (((0 : ℚ) - 2) / (0 - 3) / ((1 - 2) / (1 - 3))) :=
  ⟨⟨by norm_num, by norm_num, by norm_num, by norm_num⟩,
    (cross_ratio_collinear (1 : ℚ) 1 1 2 0 1 2 3 1 2 3 4 (by norm_num)
      (by norm_num) (by norm_num) (by norm_num) (by norm_num)
      (by norm_num) (by norm_num) (by norm_num)).1⟩

end cross_ratio_line

/-! ## The OR-based test against the max-based description -/

section ideal_or_max

variable [LinearOrderedField T]

/-- C18, as the spec states it, fails: there is no point `(x, y, w)` and no
tolerance `tol ≥ 0` for which `ideal(tol)` is true while
`|w| ≤ tol · max(|x|, |y|)` is false; at the point `(1000000, 1, 500)` with
`tol = 1/1000`, whose `|x|` and `|y|` differ greatly, both tests are true. -/
theorem ideal_or_weaker_counterexample :
    (¬ ∃ x y w tol : ℚ, 0 ≤ tol ∧ (homg_point_2d.mk x y w).ideal tol = true ∧
        ¬ (|w| ≤ tol * max |x| |y|)) ∧
    ((homg_point_2d.mk (1000000 : ℚ) 1 500).ideal (1 / 1000) = true ∧
      |(500 : ℚ)| ≤ 1 / 1000 * max |(1000000 : ℚ)| |(1 : ℚ)|) := by
  refine ⟨?_, ?_, ?_⟩
  · rintro ⟨x, y, w, tol, htol, hid, hmax⟩
    apply hmax
    rw [ideal_eq_true_iff] at hid
    rw [mul_max_of_nonneg _ _ htol, le_max_iff]
    exact hid
  · rw [ideal_eq_true_iff]
    norm_num
  · norm_num

/-- C18, amended: the OR-based test implemented by `ideal` is never stronger
than the max-based description, and for every tolerance `tol ≥ 0` it is not
weaker either (`ideal(tol)` true implies `|w| ≤ tol · max(|x|, |y|)`); the two
differ only for a negative tolerance: at the point `(0, 1, 0)` with `tol = -1`,
`ideal(tol)` is true while `|w| ≤ tol · max(|x|, |y|)` is false. -/
theorem ideal_or_vs_max (x y w tol : T) :
    (|w| ≤ tol * max |x| |y| → (homg_point_2d.mk x y w).ideal tol = true) ∧
    (0 ≤ tol → (homg_point_2d.mk x y w).ideal tol = true → |w| ≤ tol * max |x| |y|) ∧
    ((homg_point_2d.mk (0 : T) 1 0).ideal (-1) = true ∧
      ¬ (|(0 : T)| ≤ -1 * max |(0 : T)| |(1 : T)|)) := by
  refine ⟨fun h => ?_, fun htol h => ?_, ?_, ?_⟩
  · rw [ideal_eq_true_iff]
    rcases max_choice |x| |y| with hm | hm
    · exact Or.inl (by rw [hm] at h; exact h)
    · exact Or.inr (by rw [hm] at h; exact h)
  · rw [ideal_eq_true_iff] at h
    rw [mul_max_of_nonneg _ _ htol, le_max_iff]
    exact h
  · rw [ideal_eq_true_iff]
    simp
  · simp

/-- Witness for the amended C18 at the point `(1000000, 1, 500)` with
`tol = 1/1000`. -/
theorem ideal_or_vs_max_witness :
    ((0 : ℚ) ≤ 1 / 1000 ∧ (homg_point_2d.mk (1000000 : ℚ) 1 500).ideal (1 / 1000) = true) ∧
    |(500 : ℚ)| ≤ 1 / 1000 * max |(1000000 : ℚ)| |(1 : ℚ)| :=
  have h : (homg_point_2d.mk (1000000 : ℚ) 1 500).ideal (1 / 1000) = true := by
    rw [ideal_eq_true_iff]
    norm_num
  ⟨⟨by norm_num, h⟩, (ideal_or_vs_max (1000000 : ℚ) 1 500 (1 / 1000)).2.1 (by norm_num) h⟩

end ideal_or_max

end cvx_gl
